import Mathlib

/-!
# Verification of the CP-GPT curriculum-generation engine

Shallow embedding of the algorithmic core of the repository:

* `app/services/path_generator.py` — band partitioning, quota allocation,
  weighted sampling, sequence ordering, educational scoring
  (`PathGeneratorService`);
* `app/services/user_analyzer.py` — per-topic skill estimation
  (`_estimate_topic_skill`);
* `app/services/recommender.py` — similarity ranking
  (`find_similar_problems`).

Database access (`_fetch_candidates`, the candidate query of
`find_similar_problems`) belongs to the external Corpus Accessor; those
queries are modelled by passing the fetched snapshot (a `List Problem`) as
an argument, with the query's filter clauses (`rating IS NOT NULL`,
`rating BETWEEN`, `id NOT IN exclude`, `DISTINCT`) appearing as hypotheses
on that list.  Randomness (`random.uniform`, `random.shuffle`) is modelled
by explicit draw streams and an arbitrary permutation-valued shuffle
function, quantified over in the theorems.
-/

/-- The `PathMode` enum from `app/models/path.py`. -/
inductive PathMode
  | LEARNING
  | REVISION
  | CHALLENGE
deriving DecidableEq

/-- The `PathStatus` enum from `app/models/path.py`. -/
inductive PathStatus
  | ACTIVE
  | PAUSED
  | COMPLETED
  | ABANDONED
deriving DecidableEq

/-- The `ProblemStatus` enum from `app/models/path.py`. -/
inductive ProblemStatus
  | LOCKED
  | UNLOCKED
  | ATTEMPTED
  | SOLVED
  | SKIPPED
deriving DecidableEq

/-- Snapshot of a `Problem` row (`app/models/problem.py`) as the engine
reads it: an id, an optional rating, a solved count (`None` is modelled as
`0`, matching the `if problem.solved_count and problem.solved_count > 0`
guard which treats both identically) and the set of tag ids. -/
structure Problem where
  id : ℕ
  rating : Option ℤ
  solvedCount : ℕ
  tags : Finset ℕ
deriving DecidableEq

instance : Inhabited Problem := ⟨⟨0, none, 0, ∅⟩⟩

/-- The `PathConfig` dataclass from `app/services/path_generator.py`. -/
structure PathConfig where
  topics : List String
  minRating : ℤ
  maxRating : ℤ
  mode : PathMode
  problemCount : ℕ
  excludeProblemIds : Finset ℕ
  ratingStep : ℤ := 100

/-- Python's built-in `round` (round half to even) on an exact rational.
`round(total * weights[i] / total_weight)` in `_calculate_band_quotas`
computes this value: the quotient is a non-negative rational whose float
image rounds the same way for the magnitudes that occur here. -/
def pyRound (q : ℚ) : ℤ :=
  if q - ⌊q⌋ < 1 / 2 then ⌊q⌋
  else if 1 / 2 < q - ⌊q⌋ then ⌊q⌋ + 1
  else if 2 ∣ ⌊q⌋ then ⌊q⌋ else ⌊q⌋ + 1

/-- Python's `round(a / b)` for naturals `a`, `b` (`b > 0`), written with
integer arithmetic so that concrete instances reduce in the kernel.
`roundRatio_eq_pyRound` below proves it agrees with `pyRound` on the exact
ratio, which is the value `round(total * weights[i] / total_weight)`
computes (the float quotient of these small integers is correctly rounded
and its ties sit exactly on representable halves). -/
def roundRatio (a b : ℕ) : ℕ :=
  a / b +
    (if 2 * (a % b) < b then 0
     else if b < 2 * (a % b) then 1
     else if a / b % 2 = 0 then 0 else 1)

/-- The per-band weights chosen by mode in `_calculate_band_quotas`
(lines 219–229): LEARNING `n - i`, REVISION `1`, CHALLENGE `i + 1`.
The defensive `else` branch of the Python `if` chain is unreachable for
the three-member enum and disappears in the total match. -/
def modeWeights (mode : PathMode) (n : ℕ) : List ℕ :=
  match mode with
  | .LEARNING => (List.range n).map fun i => n - i
  | .REVISION => List.replicate n 1
  | .CHALLENGE => (List.range n).map fun i => i + 1

/-- One band's initial quota (lines 236–238):
`count = max(1, round(total * w / W)); count = min(count, len(bands[key]))`. -/
def initialQuota (total w W size : ℕ) : ℕ :=
  min (max 1 (roundRatio (total * w) W)) size

/-- State of the proportional allocation loop (lines 234–240) over the
bands in ascending key order: each band paired with its mode weight yields
the triple `(key, initial quota, band size)` — the data the reconciliation
loops read (`quotas[key]` and `len(bands[key])`). -/
def quotaEntries (bands : List (ℤ × List Problem)) (mode : PathMode)
    (total : ℕ) : List (ℤ × ℕ × ℕ) :=
  let weights := modeWeights mode bands.length
  let W := weights.sum
  (weights.zip bands).map fun wb =>
    (wb.2.1, initialQuota total wb.1 W wb.2.2.length, wb.2.2.length)

/-- The initial quota mapping (lines 234–240): key and quota components of
`quotaEntries`. -/
def initialQuotas (bands : List (ℤ × List Problem)) (mode : PathMode)
    (total : ℕ) : List (ℤ × ℕ) :=
  (quotaEntries bands mode total).map fun e => (e.1, e.2.1)

/-- The `diff > 0` reconciliation loop (lines 244–252) run over entries
`(key, quota, bandSize)` in visiting order: add
`min(diff, bandSize - quota)` to each visited band, stopping (leaving the
rest untouched) once the shortfall is exhausted. -/
def addLoop (d : ℤ) : List (ℤ × ℕ × ℕ) → List (ℤ × ℕ)
  | [] => []
  | e :: rest =>
    if d ≤ 0 then (e.1, e.2.1) :: addLoop d rest
    else
      let add := min d ((e.2.2 : ℤ) - (e.2.1 : ℤ))
      (e.1, e.2.1 + add.toNat) :: addLoop (d - add) rest

/-- The `diff < 0` reconciliation loop (lines 253–261) run over entries
`(key, quota)` in visiting order: remove `min(-diff, quota - 1)` from each
visited band (never below 1), stopping once the surplus is gone. -/
def removeLoop (d : ℤ) : List (ℤ × ℕ) → List (ℤ × ℕ)
  | [] => []
  | e :: rest =>
    if 0 ≤ d then e :: removeLoop d rest
    else
      let remove := min (-d) ((e.2 : ℤ) - 1)
      (e.1, e.2 - remove.toNat) :: removeLoop (d + remove) rest

/-- Model of `sorted(band_keys, key=lambda k: len(bands[k]), reverse=True)`
(line 246): stable descending sort by band size.  Insertion sort with the
non-strict "size at least" relation inserts each element before the first
tie, which (processing right-to-left) preserves the original ascending-key
order among equal sizes, exactly as Python's stable sort does. -/
def sizeDescOrder (entries : List (ℤ × ℕ × ℕ)) : List (ℤ × ℕ × ℕ) :=
  entries.insertionSort fun a b => b.2.2 ≤ a.2.2

/-- Model of `sorted(band_keys, key=lambda k: quotas[k], reverse=True)`
(line 255): stable descending sort by current quota. -/
def quotaDescOrder (entries : List (ℤ × ℕ)) : List (ℤ × ℕ) :=
  entries.insertionSort fun a b => b.2 ≤ a.2

/-- Embedding of `_calculate_band_quotas` (lines 204–263).  Bands arrive as an
association list in ascending key order (as produced by
`_partition_into_bands`); the returned quotas keep that key order, the
Python dict being consumed later through `sorted(quotas.items())`.
The two reconciliation loops run in their visiting orders and the
resulting per-key updates are read back into the key-ordered list. -/
def calculateBandQuotas (bands : List (ℤ × List Problem)) (cfg : PathConfig) :
    List (ℤ × ℕ) :=
  if bands.length = 0 then []
  else
    let total := cfg.problemCount
    let initial := initialQuotas bands cfg.mode total
    let allocated : ℕ := (initial.map (·.2)).sum
    let d : ℤ := (total : ℤ) - (allocated : ℤ)
    if 0 < d then
      let entries := quotaEntries bands cfg.mode total
      let visited := addLoop d (sizeDescOrder entries)
      initial.map fun kq => (kq.1, (visited.lookup kq.1).getD kq.2)
    else if d < 0 then
      let visited := removeLoop d (quotaDescOrder initial)
      initial.map fun kq => (kq.1, (visited.lookup kq.1).getD kq.2)
    else
      initial

/-- Modelled from the spec (§4.3 step 3, for comparison with
`calculateBandQuotas`): identical allocation, but the shortfall phase
visits bands "with the most spare capacity (largest `bandSize − quota`)
first", i.e. sorted by spare capacity instead of by band size. -/
def spareDescOrder (entries : List (ℤ × ℕ × ℕ)) : List (ℤ × ℕ × ℕ)  :=
  entries.insertionSort fun a b => b.2.2 - b.2.1 ≤ a.2.2 - a.2.1

/-- Modelled from the spec (§4.3): the quota allocator as the spec's
reconciliation sentence describes it, differing from the source only in
the visiting order of the shortfall loop (`spareDescOrder` in place of
`sizeDescOrder`). -/
def specCalculateBandQuotas (bands : List (ℤ × List Problem)) (cfg : PathConfig) :
    List (ℤ × ℕ) :=
  if bands.length = 0 then []
  else
    let total := cfg.problemCount
    let initial := initialQuotas bands cfg.mode total
    let allocated : ℕ := (initial.map (·.2)).sum
    let d : ℤ := (total : ℤ) - (allocated : ℤ)
    if 0 < d then
      let entries := quotaEntries bands cfg.mode total
      let visited := addLoop d (spareDescOrder entries)
      initial.map fun kq => (kq.1, (visited.lookup kq.1).getD kq.2)
    else if d < 0 then
      let visited := removeLoop d (quotaDescOrder initial)
      initial.map fun kq => (kq.1, (visited.lookup kq.1).getD kq.2)
    else
      initial

/-! ## Similarity ranking (`app/services/recommender.py`) -/

/-- Jaccard index on tag-id sets (recommender.py lines 216–221):
`len(ref ∩ cand) / len(ref ∪ cand)` when at least one set is truthy
(non-empty), else `0.0`. -/
def jaccard (a b : Finset ℕ) : ℚ :=
  if a.Nonempty ∨ b.Nonempty then ((a ∩ b).card : ℚ) / ((a ∪ b).card : ℚ) else 0

/-- Rating-proximity term (lines 223–225):
`max(0, 1 - abs(ref_rating - p_rating) / 500)`, the candidate's missing
rating defaulting to 1200. -/
def ratingSimilarity (refRating : ℤ) (p : Problem) : ℚ :=
  max 0 (1 - |((refRating - p.rating.getD 1200 : ℤ) : ℚ)| / 500)

/-- Composite similarity (line 227): `0.7 * jaccard + 0.3 * rating_sim`,
with the reference rating defaulting to 1200 (line 164). -/
def similarityScore (ref p : Problem) : ℚ :=
  0.7 * jaccard ref.tags p.tags + 0.3 * ratingSimilarity (ref.rating.getD 1200) p

/-- Embedding of `find_similar_problems` (recommender.py lines 141–231) over a
corpus snapshot.  The reference lookup models the `scalar_one_or_none`
query; a miss returns the empty list (lines 160–161).  The candidate query
keeps rated problems other than the reference inside the ±300 window with
a tag overlap (±200 and no tag condition when the reference has no tags),
minus the exclude-solved set; the SQL `limit(200)` truncates in corpus
order.  Candidates are then scored and stably sorted by descending
composite score, and the top `limit` survive. -/
def findSimilarProblems (corpus : List Problem) (problemId : ℕ)
    (excludeSolved : Finset ℕ) (limit : ℕ) : List Problem :=
  match corpus.find? fun p => p.id == problemId with
  | none => []
  | some ref =>
    let refRating := ref.rating.getD 1200
    let candidates :=
      (corpus.filter fun p =>
        p.id ≠ problemId ∧ p.rating.isSome ∧ p.id ∉ excludeSolved ∧
          (if ref.tags.Nonempty then
            refRating - 300 ≤ p.rating.getD 0 ∧ p.rating.getD 0 ≤ refRating + 300 ∧
              (p.tags ∩ ref.tags).Nonempty
           else
            refRating - 200 ≤ p.rating.getD 0 ∧ p.rating.getD 0 ≤ refRating + 200)).take 200
    let scored := candidates.map fun p => (similarityScore ref p, p)
    let ranked := scored.insertionSort fun a b => b.1 ≤ a.1
    (ranked.take limit).map (·.2)

/-- The `find_similar_problems` branch of `agent._execute_tool`
(agent.py lines 505–511): the recommender's list is handed to the caller
unchanged — a reference lookup miss is not wrapped in any error value. -/
def findSimilarTool (corpus : List Problem) (problemId : ℕ)
    (excludeSolved : Finset ℕ) (limit : ℕ) : Except String (List Problem) :=
  Except.ok (findSimilarProblems corpus problemId excludeSolved limit)

/-- The `get_problem_details` branch of `agent._execute_tool`
(agent.py lines 496–503): `result or {"error": "Problem not found"}` —
this neighbouring tool, unlike `find_similar_problems`, does surface a
lookup miss as a distinguished condition. -/
def getProblemDetailsTool (corpus : List Problem) (problemId : ℕ) :
    Except String Problem :=
  match corpus.find? fun p => p.id == problemId with
  | none => Except.error "Problem not found"
  | some p => Except.ok p

/-! ## Skill estimation (`app/services/user_analyzer.py`) -/

/-- Embedding of `_estimate_topic_skill` (user_analyzer.py lines 241–271).
`sorted(ratings)` is the unique ascending reordering, `int(n * 0.75)`
truncates the exact product (0.75 is a dyadic float), `int(math.log(n+1)*40)`
truncates the non-negative real logarithm, `[-1]` indexes the last sorted
element, and `//` is Python floor division. -/
noncomputable def estimateTopicSkill (ratings : List ℤ) : ℤ :=
  if ratings.isEmpty then 800
  else
    let sortedRatings := ratings.insertionSort (· ≤ ·)
    let n := sortedRatings.length
    let p75Idx := min (⌊(n : ℚ) * 0.75⌋).toNat (n - 1)
    let baseline := sortedRatings.getD p75Idx 0
    let volumeBonus := min ⌊Real.log ((n : ℝ) + 1) * 40⌋ 200
    let median := sortedRatings.getD (n / 2) 0
    let maxRating := sortedRatings.getD (n - 1) 0
    let consistencyPenalty := max 0 ((maxRating - median).fdiv 4)
    max 800 (min 3500 (baseline + volumeBonus - consistencyPenalty))

/-- Modelled from the spec (§4.7, for comparison with
`estimateTopicSkill`): `800` on the empty list, otherwise
`clamp(baseline + volumeBonus − consistencyPenalty, 800, 3500)` with
`baseline` the sorted value at index `min(floor(n*0.75), n-1)`,
`volumeBonus = min(floor(ln(n+1) * 40), 200)`, `median` the sorted value
at index `n/2`, and `consistencyPenalty = max(0, (max − median) // 4)`
where `max` is the maximum solved rating. -/
noncomputable def specSkillEstimate (ratings : List ℤ) : ℤ :=
  if ratings.isEmpty then 800
  else
    let s := ratings.insertionSort (· ≤ ·)
    let n := s.length
    let baseline := s.getD (min (⌊(n : ℚ) * 0.75⌋).toNat (n - 1)) 0
    let volumeBonus := min ⌊Real.log ((n : ℝ) + 1) * 40⌋ 200
    let median := s.getD (n / 2) 0
    let maxR := ratings.foldr max (ratings.headD 0)
    let consistencyPenalty := max 0 ((maxR - median).fdiv 4)
    min 3500 (max 800 (baseline + volumeBonus - consistencyPenalty))

/-! ## Educational scoring (`path_generator.py` lines 326–358) -/

/-- Embedding of `PathGeneratorService._educational_score`: popularity
(log-scaled solved count, capped at 50, skipped when the count is 0 or
missing), a flat 20 for having a rating, and the tag-count bucket.
A pure function of the problem snapshot — deterministic, no failure path. -/
noncomputable def educationalScore (p : Problem) : ℝ :=
  (if 0 < p.solvedCount then min (Real.logb 10 ((p.solvedCount : ℝ) + 1) * 10) 50 else 0)
    + (if p.rating.isSome then 20 else 0)
    + (if p.tags.card = 0 then 0
       else if 1 ≤ p.tags.card ∧ p.tags.card ≤ 2 then 15
       else if p.tags.card = 3 then 10
       else 5)

/-- Modelled from the spec (§4.1, for comparison with `educationalScore`):
the sum of a popularity term `min(log10(solvedCount + 1) * 10, 50)`
(0 if the count is 0 or absent), a ratedness term of 20, and the
tag-richness buckets 0 / 1–2 / 3 / ≥4 ↦ 0 / 15 / 10 / 5. -/
noncomputable def specEducationalScore (p : Problem) : ℝ :=
  (if p.solvedCount = 0 then 0 else min (Real.logb 10 ((p.solvedCount : ℝ) + 1) * 10) 50)
    + (if p.rating.isSome then 20 else 0)
    + (if p.tags.card = 0 then 0
       else if p.tags.card ≤ 2 then 15
       else if p.tags.card = 3 then 10
       else if 4 ≤ p.tags.card then 5 else 0)

/-! ## Band partitioning, sampling and ordering (`path_generator.py`) -/

/-- Band key of a rated problem (line 193):
`(p.rating // step) * step`, with Python floor division. -/
def ratingKey (step : ℤ) (p : Problem) : Option ℤ :=
  p.rating.map fun r => r.fdiv step * step

open scoped Classical in
/-- In-band ranking (line 200): stable sort by educational score
descending. -/
noncomputable def sortByScoreDesc (problems : List Problem) : List Problem :=
  problems.insertionSort fun p q => educationalScore q ≤ educationalScore p

open scoped Classical in
/-- Embedding of `_partition_into_bands` (lines 180–202): group the rated
problems by band key (unrated ones are skipped), keep ascending key order
(`dict(sorted(bands.items()))`), each band holding its problems in
arrival order re-sorted by score.  Grouping by key is expressed as a
filter per distinct key, which preserves the arrival order inside each
band exactly as repeated `append` does. -/
noncomputable def partitionIntoBands (problems : List Problem) (cfg : PathConfig) :
    List (ℤ × List Problem) :=
  let keys := (problems.filterMap (ratingKey cfg.ratingStep)).dedup
  (keys.insertionSort (· ≤ ·)).map fun k =>
    (k, sortByScoreDesc (problems.filter fun p => ratingKey cfg.ratingStep p = some k))

/-- The cumulative-weight walk of `_weighted_sample` (lines 375–381):
starting from accumulated weight `c`, return the first remaining index
whose cumulative weight reaches the draw `r`. -/
noncomputable def wsWalk (w : ℕ → ℝ) (r : ℝ) : ℝ → List ℕ → Option ℕ
  | _, [] => none
  | c, i :: rest => if r ≤ c + w i then some i else wsWalk w r (c + w i) rest

/-- The selection loop of `_weighted_sample` (lines 370–383), one
iteration per unit of fuel (`for _ in range(k)`): stop early if the total
remaining weight is non-positive, otherwise pick the walk's index
(defaulting to the first remaining index, line 376), append that item and
remove the index from the remaining pool.  The `t`-th draw of the random
stream is consumed by the `t`-th iteration. -/
noncomputable def wsGo (items : List Problem) (w : ℕ → ℝ) (draws : ℕ → ℝ) :
    ℕ → List ℕ → List Problem → List Problem
  | 0, _, acc => acc
  | fuel + 1, remaining, acc =>
    if (remaining.map w).sum ≤ 0 then acc
    else
      let chosen := (wsWalk w (draws acc.length) 0 remaining).getD (remaining.headD 0)
      wsGo items w draws fuel (remaining.erase chosen) (acc ++ [items.getD chosen default])

/-- Embedding of `_weighted_sample` (lines 360–385): weighted sampling
without replacement with weight `educational_score + 1`, over an arbitrary
stream of draw values standing for the successive `random.uniform(0, total)`
results. -/
noncomputable def weightedSample (items : List Problem) (k : ℕ) (draws : ℕ → ℝ) :
    List Problem :=
  if items.length ≤ k then items
  else
    wsGo items (fun i => educationalScore (items.getD i default) + 1) draws k
      (List.range items.length) []

/-- Embedding of `_select_from_bands` (lines 265–289): walk the quotas in
ascending key order (`sorted(quotas.items())`), restrict each band to the
top `min(pick_count * 3, len(available))` pool and sample `pick_count`
problems from it, concatenating the choices.  Each band consumes its own
draw stream. -/
noncomputable def selectFromBands (bands : List (ℤ × List Problem))
    (quotas : List (ℤ × ℕ)) (draws : ℤ → ℕ → ℝ) : List Problem :=
  (quotas.map fun kc =>
    let available := (bands.lookup kc.1).getD []
    if available.isEmpty then []
    else
      let pickCount := min kc.2 available.length
      let pool := available.take (min (pickCount * 3) available.length)
      weightedSample pool pickCount (draws kc.1)).flatten

/-- Primary ordering key of `_order_problems` (line 300): the Python tuple
`(p.rating or 0, -score)` compared lexicographically. -/
noncomputable def orderLE (p q : Problem) : Prop :=
  p.rating.getD 0 < q.rating.getD 0 ∨
    (p.rating.getD 0 = q.rating.getD 0 ∧ educationalScore q ≤ educationalScore p)

/-- The run-splitting scan of `_order_problems` (lines 304–320): maximal
groups of consecutive problems with equal `rating`. -/
def splitRuns : List Problem → List (List Problem)
  | [] => []
  | p :: rest =>
    (p :: rest.takeWhile fun q => q.rating = p.rating) ::
      splitRuns (rest.dropWhile fun q => q.rating = p.rating)
termination_by l => l.length
decreasing_by
  simpa [Nat.lt_succ_iff] using
    (List.dropWhile_sublist (l := rest) fun q : Problem =>
      decide (q.rating = p.rating)).length_le

/-- The per-group treatment of `_order_problems` (lines 311–319): a group
longer than 2 is split at its midpoint and each half is shuffled
independently; `shuf` consumes one index per shuffle call, standing for
successive `random.shuffle` invocations. -/
def processGroups (shuf : ℕ → List Problem → List Problem) :
    ℕ → List (List Problem) → List Problem
  | _, [] => []
  | i, g :: gs =>
    (if 2 < g.length then
      shuf (2 * i) (g.take (g.length / 2)) ++ shuf (2 * i + 1) (g.drop (g.length / 2))
     else g) ++ processGroups shuf (i + 1) gs

open scoped Classical in
/-- Embedding of `_order_problems` (lines 291–322): stable sort by
`(rating or 0, -score)`, then light shuffling inside equal-rating runs. -/
noncomputable def orderProblems (problems : List Problem)
    (shuf : ℕ → List Problem → List Problem) : List Problem :=
  processGroups shuf 0 (splitRuns (problems.insertionSort orderLE))

/-- Embedding of `generate_path` (lines 67–95) over the candidate snapshot
returned by `_fetch_candidates` (the Corpus Accessor query, whose filter
and `DISTINCT` guarantees appear as hypotheses in the theorems below).
`draws` supplies each band's `random.uniform` stream and `shuf` the
`random.shuffle` behaviour. -/
noncomputable def generatePath (cfg : PathConfig) (candidates : List Problem)
    (draws : ℤ → ℕ → ℝ) (shuf : ℕ → List Problem → List Problem) : List Problem :=
  if candidates.isEmpty then []
  else
    let bands := partitionIntoBands candidates cfg
    let quotas := calculateBandQuotas bands cfg
    let selected := selectFromBands bands quotas draws
    let ordered := orderProblems selected shuf
    ordered.take cfg.problemCount

/-- The `PracticePath` row as `create_practice_path` fills it in
(lines 116–128). -/
structure PracticePathRecord where
  userId : ℕ
  name : String
  description : Option String
  topics : List String
  minRating : ℤ
  maxRating : ℤ
  mode : PathMode
  forcedMode : Bool
  totalProblems : ℕ
  currentPosition : ℕ
  status : PathStatus

/-- One `PathProblem` row as `create_practice_path` fills it in
(lines 133–141). -/
structure PathProblemRecord where
  problemId : ℕ
  position : ℕ
  status : ProblemStatus
deriving DecidableEq

/-- Embedding of `create_practice_path` (lines 97–144): the rows the call
persists are its value; the `ValueError` raised on an empty generation
(line 113) aborts before any row is added, so the error carries no rows. -/
noncomputable def createPracticePath (cfg : PathConfig) (userId : ℕ) (name : String)
    (description : Option String) (forcedMode : Bool) (candidates : List Problem)
    (draws : ℤ → ℕ → ℝ) (shuf : ℕ → List Problem → List Problem) :
    Except String (PracticePathRecord × List PathProblemRecord) :=
  let problems := generatePath cfg candidates draws shuf
  if problems.isEmpty then
    Except.error "Could not generate path: no matching problems found"
  else
    Except.ok
      ({ userId := userId, name := name, description := description,
         topics := cfg.topics, minRating := cfg.minRating,
         maxRating := cfg.maxRating, mode := cfg.mode, forcedMode := forcedMode,
         totalProblems := problems.length, currentPosition := 0,
         status := PathStatus.ACTIVE },
       problems.enum.map fun ip =>
         { problemId := ip.2.id, position := ip.1,
           status := if ip.1 = 0 then ProblemStatus.UNLOCKED
                     else ProblemStatus.LOCKED })

/-! ## Helper definitions for the proofs -/

/-- Removal of the first entry with the given key from an association
list; used to reason about dictionary read-back. -/
def eraseKey (k : ℤ) : List (ℤ × ℕ) → List (ℤ × ℕ)
  | [] => []
  | e :: rest => if e.1 = k then rest else e :: eraseKey k rest

/-- Greedy shortfall distribution in a fixed visiting order, in closed
form: each visited band receives the smaller of its spare capacity and
whatever is left of the shortfall after all earlier visited bands
(clamped at zero).  `addLoop_eq_greedyFill` proves the source's
reconciliation loop computes exactly this. -/
def greedyFill (d : ℤ) : List (ℤ × ℕ × ℕ) → List (ℤ × ℕ)
  | [] => []
  | e :: rest =>
    (e.1, e.2.1 + min (e.2.2 - e.2.1) d.toNat) ::
      greedyFill (d - ((e.2.2 : ℤ) - (e.2.1 : ℤ))) rest

/-! ## Concrete example inputs -/

/-- A minimal rated problem used in concrete instances. -/
def exProblem (i : ℕ) (r : ℤ) : Problem :=
  { id := i, rating := some r, solvedCount := 0, tags := ∅ }

/-- Three one-problem bands. -/
def uniformTinyBands : List (ℤ × List Problem) :=
  [(800, [exProblem 1 800]), (900, [exProblem 2 900]), (1000, [exProblem 3 1000])]

/-- REVISION mode asking for a single problem from three bands. -/
def uniformTinyConfig : PathConfig :=
  { topics := [], minRating := 800, maxRating := 1099, mode := .REVISION,
    problemCount := 1, excludeProblemIds := ∅, ratingStep := 100 }

/-- Bands of sizes 4, 5 and 5: the initial CHALLENGE quotas for 12
problems are 2, 4 and 5, leaving a shortfall of 1 with spare capacities
2, 1 and 0. -/
def challengeSkewBands : List (ℤ × List Problem) :=
  [(800, [exProblem 1 800, exProblem 2 810, exProblem 3 820, exProblem 4 830]),
   (900, [exProblem 5 900, exProblem 6 910, exProblem 7 920, exProblem 8 930,
          exProblem 9 940]),
   (1000, [exProblem 10 1000, exProblem 11 1010, exProblem 12 1020,
           exProblem 13 1030, exProblem 14 1040])]

/-- CHALLENGE mode asking for 12 problems from `challengeSkewBands`. -/
def challengeSkewConfig : PathConfig :=
  { topics := [], minRating := 800, maxRating := 1099, mode := .CHALLENGE,
    problemCount := 12, excludeProblemIds := ∅, ratingStep := 100 }

/-- Two bands of two problems each. -/
def twoBandPairs : List (ℤ × List Problem) :=
  [(800, [exProblem 1 800, exProblem 2 810]), (900, [exProblem 3 900, exProblem 4 910])]

/-- REVISION mode asking for 3 problems from `twoBandPairs`. -/
def twoBandConfig : PathConfig :=
  { topics := [], minRating := 800, maxRating := 999, mode := .REVISION,
    problemCount := 3, excludeProblemIds := ∅, ratingStep := 100 }

/-! ## C1 and C7: quota allocator counterexamples -/

/-- C1 counterexample: three non-empty bands in REVISION mode with
`problemCount = 1` produce quotas summing to 3, while
`min(problemCount, sum(bandSizes)) = 1` — each band keeps its floor of 1
and the removal loop cannot take any band below 1. -/
theorem quotaSum_breaks_below_band_count :
    ((calculateBandQuotas uniformTinyBands uniformTinyConfig).map (·.2)).sum = 3 ∧
      min uniformTinyConfig.problemCount
        ((uniformTinyBands.map fun b => b.2.length).sum) = 1 := by
  decide

/-- C7 counterexample: with bands of sizes 4, 5, 5 (initial CHALLENGE
quotas 2, 4, 5; spares 2, 1, 0; shortfall 1) the source adds the
shortfall to the size-5 band with spare 1 (largest band size), while the
spec's spare-capacity order would add it to the size-4 band with spare 2:
the resulting quota maps differ. -/
theorem reconciliation_order_differs_from_spec :
    calculateBandQuotas challengeSkewBands challengeSkewConfig
        = [(800, 2), (900, 5), (1000, 5)] ∧
      specCalculateBandQuotas challengeSkewBands challengeSkewConfig
        = [(800, 3), (900, 4), (1000, 5)] := by
  decide

/-! ## C8: empty candidate pool -/

/-- C8: with an empty candidate pool after filtering, `create_practice_path`
fails with the "no matching problems" `ValueError` and produces no
`PracticePath` and no `PathProblem` rows — the error is raised before any
`db.add`. -/
theorem createPracticePath_empty_pool_fails (cfg : PathConfig) (userId : ℕ)
    (name : String) (description : Option String) (forcedMode : Bool)
    (draws : ℤ → ℕ → ℝ) (shuf : ℕ → List Problem → List Problem) :
    createPracticePath cfg userId name description forcedMode [] draws shuf
      = Except.error "Could not generate path: no matching problems found" := by
  simp [createPracticePath, generatePath]

/-! ## C9: reference-problem lookup miss -/

/-- C9 counterexample: a reference-problem lookup miss (id 7 absent from
the corpus) is answered with `ok []`, the very same value the tool returns
when the reference exists but no candidate matches — not a distinguished
"not found" condition. -/
theorem findSimilar_miss_is_ok_empty :
    findSimilarTool [] 7 ∅ 10 = Except.ok [] ∧
      findSimilarTool [exProblem 7 1200] 7 ∅ 10 = Except.ok [] := by
  constructor <;> rfl

/-- C9 amended: a reference-problem lookup miss in `find_similar_problems`
yields the empty list (reported to the agent caller as a successful empty
result), indistinguishable from the empty-candidates case; only the
neighbouring `get_problem_details` tool reports "Problem not found". -/
theorem findSimilar_miss_yields_empty (corpus : List Problem) (pid : ℕ)
    (ex : Finset ℕ) (lim : ℕ)
    (h : corpus.find? (fun p => p.id == pid) = none) :
    findSimilarTool corpus pid ex lim = Except.ok [] ∧
      getProblemDetailsTool corpus pid = Except.error "Problem not found" := by
  refine ⟨?_, ?_⟩
  · simp [findSimilarTool, findSimilarProblems, h]
  · simp [getProblemDetailsTool, h]

/-- Witness for `findSimilar_miss_yields_empty` at the empty corpus. -/
theorem findSimilar_miss_yields_empty_witness :
    (List.find? (fun p => p.id == 7) ([] : List Problem) = none) ∧
      (findSimilarTool [] 7 ∅ 10 = Except.ok [] ∧
        getProblemDetailsTool [] 7 = Except.error "Problem not found") :=
  ⟨rfl, findSimilar_miss_yields_empty [] 7 ∅ 10 rfl⟩
/-! ## C6: similarity scoring -/

/-- Jaccard on tag sets is symmetric: intersection and union commute. -/
theorem jaccard_comm (a b : Finset ℕ) : jaccard a b = jaccard b a := by
  unfold jaccard
  rw [Finset.inter_comm, Finset.union_comm]
  exact if_congr or_comm rfl rfl

theorem jaccard_nonneg (a b : Finset ℕ) : 0 ≤ jaccard a b := by
  unfold jaccard
  split
  · positivity
  · exact le_refl 0

theorem jaccard_le_one (a b : Finset ℕ) : jaccard a b ≤ 1 := by
  unfold jaccard
  split
  · rename_i h
    have hu : 0 < ((a ∪ b).card : ℚ) := by
      have : (a ∪ b).Nonempty := by
        rcases h with h | h
        · exact h.mono Finset.subset_union_left
        · exact h.mono Finset.subset_union_right
      exact_mod_cast Finset.card_pos.mpr this
    rw [div_le_one hu]
    exact_mod_cast Finset.card_le_card Finset.inter_subset_union
  · norm_num

theorem jaccard_self (a : Finset ℕ) (h : a.Nonempty) : jaccard a a = 1 := by
  unfold jaccard
  rw [if_pos (Or.inl h), Finset.inter_self, Finset.union_self]
  have hc : ((a.card : ℚ)) ≠ 0 := by exact_mod_cast Finset.card_ne_zero.mpr h
  field_simp

theorem ratingSimilarity_nonneg (r : ℤ) (p : Problem) : 0 ≤ ratingSimilarity r p :=
  le_max_left 0 _

theorem ratingSimilarity_le_one (r : ℤ) (p : Problem) : ratingSimilarity r p ≤ 1 := by
  unfold ratingSimilarity
  have h : (0 : ℚ) ≤ |((r - p.rating.getD 1200 : ℤ) : ℚ)| / 500 := by positivity
  rw [max_le_iff]
  constructor
  · norm_num
  · linarith

theorem ratingSimilarity_self (p : Problem) :
    ratingSimilarity (p.rating.getD 1200) p = 1 := by
  unfold ratingSimilarity
  simp

/-- C6 amended: the similarity scoring of `find_similar_problems` is
symmetric in the two tag sets and the composite score `0.7*jaccard +
0.3*ratingSimilarity` lies in `[0,1]` for every pair of problems, tagged
or tagless; a problem whose tag set is non-empty scores exactly `1.0`
against itself, while with an empty tag set the both-empty jaccard
convention yields `0`, so the self-score is exactly `0.3`. -/
theorem similarity_symm_bounded_self (p q : Problem) :
    jaccard p.tags q.tags = jaccard q.tags p.tags ∧
      0 ≤ similarityScore p q ∧ similarityScore p q ≤ 1 ∧
      (q.tags.Nonempty → similarityScore q q = 1) ∧
      (q.tags = ∅ → similarityScore q q = 0.3) := by
  refine ⟨jaccard_comm _ _, ?_, ?_, ?_, ?_⟩
  · unfold similarityScore
    have := jaccard_nonneg p.tags q.tags
    have := ratingSimilarity_nonneg (p.rating.getD 1200) q
    linarith
  · unfold similarityScore
    have := jaccard_le_one p.tags q.tags
    have := ratingSimilarity_le_one (p.rating.getD 1200) q
    linarith
  · intro hq
    unfold similarityScore
    rw [jaccard_self q.tags hq, ratingSimilarity_self q]
    norm_num
  · intro hq
    unfold similarityScore
    rw [hq]
    rw [show jaccard ∅ ∅ = 0 from by unfold jaccard; simp,
      ratingSimilarity_self q]
    norm_num

/-- Witness for `similarity_symm_bounded_self` at two concrete tagged
problems, with both inner implications discharged at a concrete tag set. -/
theorem similarity_symm_bounded_self_witness :
    (Finset.Nonempty (Problem.tags ⟨2, some 1000, 0, {1, 2}⟩)) ∧
      (jaccard (Problem.tags ⟨1, some 900, 0, {3}⟩) (Problem.tags ⟨2, some 1000, 0, {1, 2}⟩)
          = jaccard (Problem.tags ⟨2, some 1000, 0, {1, 2}⟩) (Problem.tags ⟨1, some 900, 0, {3}⟩) ∧
        0 ≤ similarityScore ⟨1, some 900, 0, {3}⟩ ⟨2, some 1000, 0, {1, 2}⟩ ∧
        similarityScore ⟨1, some 900, 0, {3}⟩ ⟨2, some 1000, 0, {1, 2}⟩ ≤ 1 ∧
        similarityScore ⟨2, some 1000, 0, {1, 2}⟩ ⟨2, some 1000, 0, {1, 2}⟩ = 1) :=
  ⟨by decide,
    (similarity_symm_bounded_self ⟨1, some 900, 0, {3}⟩ ⟨2, some 1000, 0, {1, 2}⟩).1,
    (similarity_symm_bounded_self ⟨1, some 900, 0, {3}⟩ ⟨2, some 1000, 0, {1, 2}⟩).2.1,
    (similarity_symm_bounded_self ⟨1, some 900, 0, {3}⟩ ⟨2, some 1000, 0, {1, 2}⟩).2.2.1,
    (similarity_symm_bounded_self ⟨1, some 900, 0, {3}⟩
      ⟨2, some 1000, 0, {1, 2}⟩).2.2.2.1 (by decide)⟩

/-- C6 counterexample: a problem with an empty tag set compared with
itself has `jaccard = 0` (the both-empty convention), so the composite
score is `0.3`, not `1.0`. -/
theorem similarity_self_not_one_on_empty_tags :
    similarityScore (exProblem 1 1200) (exProblem 1 1200) ≠ 1 ∧
      jaccard (exProblem 1 1200).tags (exProblem 1 1200).tags = 0 := by
  have ht : (exProblem 1 1200).tags = ∅ := rfl
  have hj : jaccard (exProblem 1 1200).tags (exProblem 1 1200).tags = 0 := by
    rw [ht]; unfold jaccard; simp
  refine ⟨?_, hj⟩
  unfold similarityScore
  rw [hj, ratingSimilarity_self (exProblem 1 1200)]
  norm_num

/-- C5: the educational scorer is exactly the sum of the spec's
popularity, ratedness and tag-richness terms — `educationalScore`
(translated from `_educational_score`) coincides with
`specEducationalScore` (written from the spec) on every problem; both are
pure functions with no failure path. -/
theorem educationalScore_eq_spec (p : Problem) :
    educationalScore p = specEducationalScore p := by
  unfold educationalScore specEducationalScore
  have hpop : (if 0 < p.solvedCount
        then min (Real.logb 10 ((p.solvedCount : ℝ) + 1) * 10) 50 else 0)
      = (if p.solvedCount = 0 then 0
        else min (Real.logb 10 ((p.solvedCount : ℝ) + 1) * 10) 50) := by
    rcases Nat.eq_zero_or_pos p.solvedCount with h | h
    · simp [h]
    · simp [h, Nat.pos_iff_ne_zero.mp h]
  have htag : (if p.tags.card = 0 then (0 : ℝ)
        else if 1 ≤ p.tags.card ∧ p.tags.card ≤ 2 then 15
        else if p.tags.card = 3 then 10
        else 5)
      = (if p.tags.card = 0 then 0
        else if p.tags.card ≤ 2 then 15
        else if p.tags.card = 3 then 10
        else if 4 ≤ p.tags.card then 5 else 0) := by
    by_cases h0 : p.tags.card = 0
    · simp [h0]
    · by_cases h2 : p.tags.card ≤ 2
      · have h1 : 1 ≤ p.tags.card := by omega
        simp [h0, h2, h1]
      · by_cases h3 : p.tags.card = 3
        · simp [h0, h2, h3]
        · have h4 : 4 ≤ p.tags.card := by omega
          simp [h0, h2, h3, h4]
  rw [hpop, htag]

/-! ## C4 and C10: skill estimator -/

/-- Every member of a list is bounded by its max fold. -/
theorem le_foldr_max (b : ℤ) (l : List ℤ) : ∀ x ∈ l, x ≤ l.foldr max b := by
  induction l with
  | nil => intro x hx; cases hx
  | cons a t ih =>
    intro x hx
    rcases List.mem_cons.mp hx with h | h
    · subst h; exact le_max_left _ _
    · exact (ih x h).trans (le_max_right _ _)

theorem foldr_max_mem (b : ℤ) (l : List ℤ) : l.foldr max b ∈ b :: l := by
  induction l with
  | nil => simp
  | cons a t ih =>
    rcases le_total a (t.foldr max b) with h | h
    · rw [List.foldr_cons, max_eq_right h]
      rcases List.mem_cons.mp ih with h' | h'
      · exact List.mem_cons.mpr (Or.inl h')
      · exact List.mem_cons.mpr (Or.inr (List.mem_cons.mpr (Or.inr h')))
    · rw [List.foldr_cons, max_eq_left h]
      exact List.mem_cons.mpr (Or.inr (List.mem_cons.mpr (Or.inl rfl)))

theorem headD_mem (l : List ℤ) (h : l ≠ []) : l.headD 0 ∈ l := by
  cases l with
  | nil => exact absurd rfl h
  | cons a t => simp

theorem sorted_last_eq_foldr_max (l : List ℤ) (h : l ≠ []) :
    (l.insertionSort (· ≤ ·)).getD ((l.insertionSort (· ≤ ·)).length - 1) 0
      = l.foldr max (l.headD 0) := by
  have hperm : (l.insertionSort (· ≤ ·)).Perm l := List.perm_insertionSort _ l
  have hsort : (l.insertionSort (· ≤ ·)).Sorted (· ≤ ·) := List.sorted_insertionSort _ l
  have hlen : 0 < (l.insertionSort (· ≤ ·)).length := by
    rw [hperm.length_eq]
    exact List.length_pos.mpr h
  have hlt : (l.insertionSort (· ≤ ·)).length - 1 < (l.insertionSort (· ≤ ·)).length := by
    omega
  rw [List.getD_eq_getElem _ _ hlt]
  set s := l.insertionSort (· ≤ ·) with hs
  set M := l.foldr max (l.headD 0) with hM
  have hMl : M ∈ l := by
    rcases List.mem_cons.mp (foldr_max_mem (l.headD 0) l) with h' | h'
    · rw [hM, h']; exact headD_mem l h
    · exact h'
  have hlast_mem : s[s.length - 1] ∈ l := hperm.mem_iff.mp (List.getElem_mem hlt)
  have h1 : s[s.length - 1] ≤ M := le_foldr_max _ _ _ hlast_mem
  have h2 : M ≤ s[s.length - 1] := by
    obtain ⟨i, hi⟩ := List.get_of_mem (hperm.mem_iff.mpr hMl)
    have := hsort.rel_get_of_le (a := i) (b := ⟨s.length - 1, hlt⟩) (by
      apply Fin.mk_le_mk.mpr
      omega)
    rw [hi] at this
    simpa using this
  exact le_antisymm h1 h2

/-- C4: the skill estimator returns 800 on the empty list and otherwise
`clamp(baseline + volumeBonus - consistencyPenalty, 800, 3500)` exactly
as the spec writes it: `estimateTopicSkill` (translated from
`_estimate_topic_skill`) coincides with `specSkillEstimate` (written from
the spec, with the max of the ratings in place of the last sorted
element). -/
theorem estimateTopicSkill_eq_spec (ratings : List ℤ) :
    estimateTopicSkill ratings = specSkillEstimate ratings := by
  by_cases h : ratings.isEmpty
  · simp [estimateTopicSkill, specSkillEstimate, h]
  · have hne : ratings ≠ [] := by simpa [List.isEmpty_iff] using h
    simp only [estimateTopicSkill, specSkillEstimate, h, if_false, Bool.false_eq_true]
    rw [sorted_last_eq_foldr_max ratings hne]
    generalize (ratings.insertionSort (· ≤ ·)).getD
      (min (⌊((ratings.insertionSort (· ≤ ·)).length : ℚ) * 0.75⌋).toNat
        ((ratings.insertionSort (· ≤ ·)).length - 1)) 0 = B
    generalize min ⌊Real.log (((ratings.insertionSort (· ≤ ·)).length : ℝ) + 1) * 40⌋ 200 = V
    generalize (ratings.foldr max (ratings.headD 0) -
      (ratings.insertionSort (· ≤ ·)).getD ((ratings.insertionSort (· ≤ ·)).length / 2) 0).fdiv 4 = t
    omega

/-- C10: the skill estimator is invariant under permutation of its
input — it sorts the ratings first, so, despite the in-code comment about
recent solves counting more, input order never affects the estimate. -/
theorem estimateTopicSkill_perm_invariant (l l' : List ℤ) (h : l.Perm l') :
    estimateTopicSkill l = estimateTopicSkill l' := by
  have hs : l.insertionSort (· ≤ ·) = l'.insertionSort (· ≤ ·) :=
    List.eq_of_perm_of_sorted
      ((List.perm_insertionSort _ l).trans (h.trans (List.perm_insertionSort _ l').symm))
      (List.sorted_insertionSort _ l) (List.sorted_insertionSort _ l')
  have he : l.isEmpty = l'.isEmpty := by
    have := h.length_eq
    rcases l with _ | ⟨a, t⟩ <;> rcases l' with _ | ⟨b, u⟩ <;> simp_all
  unfold estimateTopicSkill
  rw [hs, he]

/-- Witness for `estimateTopicSkill_perm_invariant` on a concrete
reordering. -/
theorem estimateTopicSkill_perm_invariant_witness :
    (([1200, 1400, 1000] : List ℤ).Perm [1400, 1000, 1200]) ∧
      estimateTopicSkill [1200, 1400, 1000] = estimateTopicSkill [1400, 1000, 1200] :=
  ⟨by decide, estimateTopicSkill_perm_invariant _ _ (by decide)⟩

/-! ## Association-list machinery -/

theorem lookup_cons_self {β : Type} (k : ℤ) (v : β) (l : List (ℤ × β)) :
    ((k, v) :: l).lookup k = some v := by
  simp [List.lookup]

theorem lookup_cons_ne {β : Type} (k0 k : ℤ) (v : β) (l : List (ℤ × β))
    (h : k ≠ k0) : ((k0, v) :: l).lookup k = l.lookup k := by
  simp [List.lookup, beq_eq_false_iff_ne.mpr h]

theorem lookup_some_of_mem_keys {β : Type} :
    ∀ (l : List (ℤ × β)) (k : ℤ), k ∈ l.map (·.1) → ∃ v, l.lookup k = some v := by
  intro l
  induction l with
  | nil => intro k hk; simp at hk
  | cons e rest ih =>
    obtain ⟨k0, v0⟩ := e
    intro k hk
    by_cases h : k = k0
    · subst h
      exact ⟨v0, lookup_cons_self ..⟩
    · rw [List.map_cons, List.mem_cons] at hk
      rcases hk with h' | h'
      · exact absurd h' h
      · obtain ⟨v, hv⟩ := ih k h'
        exact ⟨v, by rw [lookup_cons_ne _ _ _ _ h, hv]⟩

theorem lookup_mem {β : Type} :
    ∀ {l : List (ℤ × β)} {k : ℤ} {v : β}, l.lookup k = some v → (k, v) ∈ l := by
  intro l
  induction l with
  | nil => intro k v h; simp [List.lookup] at h
  | cons e rest ih =>
    obtain ⟨k0, v0⟩ := e
    intro k v h
    by_cases hk : k = k0
    · subst hk
      rw [lookup_cons_self] at h
      obtain rfl : v0 = v := Option.some.injEq .. |>.mp h
      exact List.mem_cons_self _ _
    · rw [lookup_cons_ne _ _ _ _ hk] at h
      exact List.mem_cons.mpr (Or.inr (ih h))

theorem lookup_eq_some_of_mem {β : Type} :
    ∀ (l : List (ℤ × β)), (l.map (·.1)).Nodup →
      ∀ {k : ℤ} {x : β}, (k, x) ∈ l → l.lookup k = some x := by
  intro l
  induction l with
  | nil => intro _ k x h; simp at h
  | cons e rest ih =>
    obtain ⟨k0, v0⟩ := e
    intro hnd k x h
    rw [List.map_cons, List.nodup_cons] at hnd
    rcases List.mem_cons.mp h with h' | h'
    · obtain ⟨hk, hv⟩ := Prod.mk.injEq .. |>.mp h'
      subst hk; subst hv
      exact lookup_cons_self ..
    · have hk : k ≠ k0 := by
        intro hkk
        subst hkk
        exact hnd.1 (List.mem_map.mpr ⟨(k, x), h', rfl⟩)
      rw [lookup_cons_ne _ _ _ _ hk]
      exact ih hnd.2 h'

theorem lookup_eraseKey :
    ∀ (l : List (ℤ × ℕ)) (k k' : ℤ), k' ≠ k →
      (eraseKey k l).lookup k' = l.lookup k' := by
  intro l
  induction l with
  | nil => intro k k' _; simp [eraseKey]
  | cons e rest ih =>
    obtain ⟨k0, v0⟩ := e
    intro k k' hne
    by_cases h : k0 = k
    · subst h
      rw [show eraseKey k0 ((k0, v0) :: rest) = rest from by simp [eraseKey],
        lookup_cons_ne _ _ _ _ hne]
    · by_cases h' : k' = k0
      · subst h'
        rw [show eraseKey k ((k', v0) :: rest) = (k', v0) :: eraseKey k rest from by
          simp [eraseKey, h], lookup_cons_self, lookup_cons_self]
      · rw [show eraseKey k ((k0, v0) :: rest) = (k0, v0) :: eraseKey k rest from by
          simp [eraseKey, h], lookup_cons_ne _ _ _ _ h', lookup_cons_ne _ _ _ _ h',
          ih k k' hne]

theorem sum_eraseKey :
    ∀ (l : List (ℤ × ℕ)) (k : ℤ) (v : ℕ), l.lookup k = some v →
      (l.map (·.2)).sum = v + ((eraseKey k l).map (·.2)).sum := by
  intro l
  induction l with
  | nil => intro k v h; simp [List.lookup] at h
  | cons e rest ih =>
    obtain ⟨k0, v0⟩ := e
    intro k v h
    by_cases hk : k = k0
    · subst hk
      rw [lookup_cons_self] at h
      obtain rfl : v0 = v := Option.some.injEq .. |>.mp h
      simp [eraseKey]
    · rw [lookup_cons_ne _ _ _ _ hk] at h
      have hne : ¬ k0 = k := fun hh => hk hh.symm
      simp only [eraseKey, if_neg hne, List.map_cons, List.sum_cons, ih k v h]
      omega

theorem keys_eraseKey_perm :
    ∀ (l : List (ℤ × ℕ)) (k : ℤ) (v : ℕ), l.lookup k = some v →
      (k :: (eraseKey k l).map (·.1)).Perm (l.map (·.1)) := by
  intro l
  induction l with
  | nil => intro k v h; simp [List.lookup] at h
  | cons e rest ih =>
    obtain ⟨k0, v0⟩ := e
    intro k v h
    by_cases hk : k = k0
    · subst hk
      simp [eraseKey]
    · rw [lookup_cons_ne _ _ _ _ hk] at h
      have hne : ¬ k0 = k := fun hh => hk hh.symm
      simp only [eraseKey, if_neg hne, List.map_cons]
      exact (List.Perm.swap k0 k _).trans ((ih k v h).cons k0)

theorem sum_map_lookup :
    ∀ (init : List (ℤ × ℕ)) (vis : List (ℤ × ℕ)),
      (vis.map (·.1)).Perm (init.map (·.1)) → (init.map (·.1)).Nodup →
      ((init.map fun kq => (kq.1, (vis.lookup kq.1).getD kq.2)).map (·.2)).sum
        = (vis.map (·.2)).sum := by
  intro init
  induction init with
  | nil =>
    intro vis hperm _
    have h0 : vis.map (fun x : ℤ × ℕ => x.1) = [] :=
      List.Perm.eq_nil (by simpa using hperm)
    have hv : vis = [] := List.map_eq_nil_iff.mp h0
    simp [hv]
  | cons kq rest ih =>
    obtain ⟨k, q⟩ := kq
    intro vis hperm hnd
    rw [List.map_cons, List.nodup_cons] at hnd
    have hkmem : k ∈ vis.map (·.1) := hperm.mem_iff.mpr (by simp)
    obtain ⟨v, hv⟩ := lookup_some_of_mem_keys vis k hkmem
    have hkeyerase : ((eraseKey k vis).map (·.1)).Perm (rest.map (·.1)) :=
      ((keys_eraseKey_perm vis k v hv).trans hperm).cons_inv
    have hrest : (rest.map fun kq => (kq.1, (vis.lookup kq.1).getD kq.2))
        = rest.map fun kq => (kq.1, ((eraseKey k vis).lookup kq.1).getD kq.2) := by
      apply List.map_congr_left
      intro a ha
      have hane : a.1 ≠ k := by
        intro hh
        exact hnd.1 (hh ▸ List.mem_map.mpr ⟨a, ha, rfl⟩)
      rw [lookup_eraseKey vis k a.1 hane]
    rw [List.map_cons, List.map_cons, List.sum_cons, hv, Option.getD_some, hrest,
      ih (eraseKey k vis) hkeyerase hnd.2, sum_eraseKey vis k v hv]

theorem mem_map_lookup (init vis : List (ℤ × ℕ)) (kq' : ℤ × ℕ)
    (h : kq' ∈ init.map fun kq => (kq.1, (vis.lookup kq.1).getD kq.2)) :
    ∃ kq ∈ init, kq'.1 = kq.1 ∧ (kq'.2 = kq.2 ∨ (kq.1, kq'.2) ∈ vis) := by
  obtain ⟨kq, hkq, hrfl⟩ := List.mem_map.mp h
  refine ⟨kq, hkq, ?_, ?_⟩
  · rw [← hrfl]
  · rcases hl : vis.lookup kq.1 with _ | v
    · left; rw [← hrfl]; simp [hl]
    · right
      have hv : kq'.2 = v := by rw [← hrfl]; simp [hl]
      rw [hv]
      exact lookup_mem hl

/-! ## Reconciliation loop lemmas -/

theorem addLoop_nonpos : ∀ (l : List (ℤ × ℕ × ℕ)) (d : ℤ), d ≤ 0 →
    addLoop d l = l.map fun e => (e.1, e.2.1) := by
  intro l
  induction l with
  | nil => intro d _; simp [addLoop]
  | cons e rest ih =>
    intro d hd
    rw [addLoop, if_pos hd, List.map_cons, ih d hd]


theorem greedyFill_nonpos : ∀ (l : List (ℤ × ℕ × ℕ)) (d : ℤ), d ≤ 0 →
    (∀ e ∈ l, e.2.1 ≤ e.2.2) →
    greedyFill d l = l.map fun e => (e.1, e.2.1) := by
  intro l
  induction l with
  | nil => intro d _ _; simp [greedyFill]
  | cons e rest ih =>
    intro d hd hqs
    have hqe : e.2.1 ≤ e.2.2 := hqs e (List.mem_cons_self _ _)
    have hrest : ∀ x ∈ rest, x.2.1 ≤ x.2.2 := fun x hx => hqs x (List.mem_cons_of_mem _ hx)
    rw [greedyFill, List.map_cons, ih _ (by omega) hrest]
    have h0 : d.toNat = 0 := by omega
    rw [h0]
    simp

theorem addLoop_keys : ∀ (l : List (ℤ × ℕ × ℕ)) (d : ℤ),
    (addLoop d l).map (·.1) = l.map (·.1) := by
  intro l
  induction l with
  | nil => intro d; simp [addLoop]
  | cons e rest ih =>
    intro d
    by_cases h : d ≤ 0
    · simp [addLoop, h, ih]
    · simp [addLoop, h, ih]

theorem addLoop_sum : ∀ (l : List (ℤ × ℕ × ℕ)) (d : ℤ), 0 ≤ d →
    (∀ e ∈ l, e.2.1 ≤ e.2.2) →
    ((addLoop d l).map (·.2)).sum
      = (l.map (·.2.1)).sum + min d.toNat ((l.map fun e => e.2.2 - e.2.1).sum) := by
  intro l
  induction l with
  | nil => intro d _ _; simp [addLoop]
  | cons e rest ih =>
    intro d hd hqs
    have hqe : e.2.1 ≤ e.2.2 := hqs e (List.mem_cons_self _ _)
    have hrest : ∀ x ∈ rest, x.2.1 ≤ x.2.2 := fun x hx => hqs x (List.mem_cons_of_mem _ hx)
    by_cases h : d ≤ 0
    · have hd0 : d = 0 := le_antisymm h hd
      subst hd0
      rw [addLoop_nonpos _ 0 (le_refl 0), List.map_map]
      have hco : ((fun x : ℤ × ℕ => x.2) ∘ fun e : ℤ × ℕ × ℕ => (e.1, e.2.1))
          = fun e : ℤ × ℕ × ℕ => e.2.1 := rfl
      rw [hco]
      omega
    · simp only [addLoop, if_neg h, List.map_cons, List.sum_cons]
      have hadd : (0 : ℤ) ≤ min d ((e.2.2 : ℤ) - (e.2.1 : ℤ)) := by omega
      have hdle : min d ((e.2.2 : ℤ) - (e.2.1 : ℤ)) ≤ d := min_le_left _ _
      rw [ih (d - min d ((e.2.2 : ℤ) - (e.2.1 : ℤ))) (by omega) hrest]
      omega

theorem addLoop_mem : ∀ (l : List (ℤ × ℕ × ℕ)) (d : ℤ),
    (∀ e ∈ l, e.2.1 ≤ e.2.2) →
    ∀ e' ∈ addLoop d l, ∃ e ∈ l, e'.1 = e.1 ∧ e.2.1 ≤ e'.2 ∧ e'.2 ≤ e.2.2 := by
  intro l
  induction l with
  | nil => intro d _ e' h'; simp [addLoop] at h'
  | cons e rest ih =>
    intro d hqs e' h'
    have hqe : e.2.1 ≤ e.2.2 := hqs e (List.mem_cons_self _ _)
    have hrest : ∀ x ∈ rest, x.2.1 ≤ x.2.2 := fun x hx => hqs x (List.mem_cons_of_mem _ hx)
    by_cases h : d ≤ 0
    · rw [addLoop, if_pos h] at h'
      rcases List.mem_cons.mp h' with h'' | h''
      · exact ⟨e, List.mem_cons_self _ _, by rw [h''], by rw [h''], by rw [h'']; exact hqe⟩
      · obtain ⟨x, hx, hfact⟩ := ih d hrest e' h''
        exact ⟨x, List.mem_cons_of_mem _ hx, hfact⟩
    · rw [addLoop, if_neg h] at h'
      rcases List.mem_cons.mp h' with h'' | h''
      · refine ⟨e, List.mem_cons_self _ _, by rw [h''], ?_, ?_⟩
        · rw [h'']
          exact Nat.le_add_right _ _
        · rw [h'']
          have hcap : (min d ((e.2.2 : ℤ) - (e.2.1 : ℤ))).toNat ≤ e.2.2 - e.2.1 := by omega
          omega
      · obtain ⟨x, hx, hfact⟩ := ih _ hrest e' h''
        exact ⟨x, List.mem_cons_of_mem _ hx, hfact⟩

theorem removeLoop_keys : ∀ (l : List (ℤ × ℕ)) (d : ℤ),
    (removeLoop d l).map (·.1) = l.map (·.1) := by
  intro l
  induction l with
  | nil => intro d; simp [removeLoop]
  | cons e rest ih =>
    intro d
    by_cases h : 0 ≤ d
    · simp [removeLoop, h, ih]
    · simp [removeLoop, h, ih]

theorem removeLoop_sum : ∀ (l : List (ℤ × ℕ)) (d : ℤ), d ≤ 0 →
    (∀ e ∈ l, 1 ≤ e.2) →
    ((removeLoop d l).map (·.2)).sum
      = (l.map (·.2)).sum - min (-d).toNat ((l.map fun e => e.2 - 1).sum) := by
  intro l
  induction l with
  | nil => intro d _ _; simp [removeLoop]
  | cons e rest ih =>
    intro d hd hq
    have hqe : 1 ≤ e.2 := hq e (List.mem_cons_self _ _)
    have hrest : ∀ x ∈ rest, 1 ≤ x.2 := fun x hx => hq x (List.mem_cons_of_mem _ hx)
    have hsub : ((rest.map fun e => e.2 - 1).sum) + rest.length = (rest.map (·.2)).sum := by
      clear ih hd hq
      induction rest with
      | nil => simp
      | cons x t iht =>
        have hx1 : 1 ≤ x.2 := hrest x (List.mem_cons_self _ _)
        have ht : ∀ y ∈ t, 1 ≤ y.2 := fun y hy => hrest y (List.mem_cons_of_mem _ hy)
        simp only [List.map_cons, List.sum_cons, List.length_cons]
        rw [← iht ht]
        omega
    by_cases h : 0 ≤ d
    · have hd0 : d = 0 := le_antisymm hd h
      subst hd0
      simp only [removeLoop, if_pos (le_refl (0 : ℤ)), List.map_cons, List.sum_cons,
        ih 0 (le_refl 0) hrest]
      omega
    · simp only [removeLoop, if_neg h, List.map_cons, List.sum_cons]
      rw [ih (d + min (-d) ((e.2 : ℤ) - 1)) (by omega) hrest]
      have hminle : min (-d) ((e.2 : ℤ) - 1) ≤ (e.2 : ℤ) - 1 := min_le_right _ _
      have hminnn : 0 ≤ min (-d) ((e.2 : ℤ) - 1) := by omega
      omega

theorem removeLoop_mem : ∀ (l : List (ℤ × ℕ)) (d : ℤ),
    (∀ e ∈ l, 1 ≤ e.2) →
    ∀ e' ∈ removeLoop d l, ∃ e ∈ l, e'.1 = e.1 ∧ 1 ≤ e'.2 ∧ e'.2 ≤ e.2 := by
  intro l
  induction l with
  | nil => intro d _ e' h'; simp [removeLoop] at h'
  | cons e rest ih =>
    intro d hq e' h'
    have hqe : 1 ≤ e.2 := hq e (List.mem_cons_self _ _)
    have hrest : ∀ x ∈ rest, 1 ≤ x.2 := fun x hx => hq x (List.mem_cons_of_mem _ hx)
    by_cases h : 0 ≤ d
    · rw [removeLoop, if_pos h] at h'
      rcases List.mem_cons.mp h' with h'' | h''
      · exact ⟨e, List.mem_cons_self _ _, by rw [h''], by rw [h'']; exact hqe,
          by rw [h'']⟩
      · obtain ⟨x, hx, hfact⟩ := ih d hrest e' h''
        exact ⟨x, List.mem_cons_of_mem _ hx, hfact⟩
    · rw [removeLoop, if_neg h] at h'
      rcases List.mem_cons.mp h' with h'' | h''
      · refine ⟨e, List.mem_cons_self _ _, by rw [h''], ?_, ?_⟩
        · rw [h'']
          have : (min (-d) ((e.2 : ℤ) - 1)).toNat ≤ e.2 - 1 := by omega
          omega
        · rw [h'']
          exact Nat.sub_le _ _
      · obtain ⟨x, hx, hfact⟩ := ih _ hrest e' h''
        exact ⟨x, List.mem_cons_of_mem _ hx, hfact⟩

theorem addLoop_eq_greedyFill : ∀ (l : List (ℤ × ℕ × ℕ)) (d : ℤ), 0 ≤ d →
    (∀ e ∈ l, e.2.1 ≤ e.2.2) → addLoop d l = greedyFill d l := by
  intro l
  induction l with
  | nil => intro d _ _; simp [addLoop, greedyFill]
  | cons e rest ih =>
    intro d hd hqs
    have hqe : e.2.1 ≤ e.2.2 := hqs e (List.mem_cons_self _ _)
    have hrest : ∀ x ∈ rest, x.2.1 ≤ x.2.2 := fun x hx => hqs x (List.mem_cons_of_mem _ hx)
    by_cases h : d ≤ 0
    · have hd0 : d = 0 := le_antisymm h hd
      subst hd0
      rw [addLoop_nonpos _ 0 (le_refl 0), greedyFill_nonpos _ 0 (le_refl 0) hqs]
    · simp only [addLoop, if_neg h, greedyFill]
      have hval : (min d ((e.2.2 : ℤ) - (e.2.1 : ℤ))).toNat
          = min (e.2.2 - e.2.1) d.toNat := by omega
      rw [hval]
      by_cases hcap : d ≤ (e.2.2 : ℤ) - (e.2.1 : ℤ)
      · have h1 : d - min d ((e.2.2 : ℤ) - (e.2.1 : ℤ)) = 0 := by omega
        have h2 : d - ((e.2.2 : ℤ) - (e.2.1 : ℤ)) ≤ 0 := by omega
        rw [h1, addLoop_nonpos _ 0 (le_refl 0), greedyFill_nonpos _ _ h2 hrest]
      · have h1 : d - min d ((e.2.2 : ℤ) - (e.2.1 : ℤ)) = d - ((e.2.2 : ℤ) - (e.2.1 : ℤ)) := by
          omega
        rw [h1, ih _ (by omega) hrest]

/-! ## Structure of the initial allocation -/

theorem modeWeights_length (mode : PathMode) (n : ℕ) :
    (modeWeights mode n).length = n := by
  cases mode <;> simp [modeWeights]

theorem map_comp_snd_zip {α β γ : Type} (f : β → γ) :
    ∀ (l₁ : List α) (l₂ : List β), l₂.length ≤ l₁.length →
      (l₁.zip l₂).map (fun ab => f ab.2) = l₂.map f := by
  intro l₁
  induction l₁ with
  | nil =>
    intro l₂ h
    have : l₂ = [] := List.length_eq_zero.mp (Nat.le_zero.mp (by simpa using h))
    simp [this]
  | cons a t ih =>
    intro l₂ h
    cases l₂ with
    | nil => simp
    | cons b u =>
      simp only [List.zip_cons_cons, List.map_cons]
      rw [ih u (by simpa using h)]

theorem quotaEntries_keys (bands : List (ℤ × List Problem)) (mode : PathMode)
    (total : ℕ) :
    (quotaEntries bands mode total).map (·.1) = bands.map (·.1) := by
  simp only [quotaEntries, List.map_map, Function.comp]
  exact map_comp_snd_zip (fun b : ℤ × List Problem => b.1) _ _ (modeWeights_length mode bands.length).ge

theorem quotaEntries_sizes (bands : List (ℤ × List Problem)) (mode : PathMode)
    (total : ℕ) :
    (quotaEntries bands mode total).map (·.2.2) = bands.map fun b => b.2.length := by
  simp only [quotaEntries, List.map_map, Function.comp]
  exact map_comp_snd_zip (fun b : ℤ × List Problem => b.2.length) _ _ (modeWeights_length mode bands.length).ge

theorem quotaEntries_length (bands : List (ℤ × List Problem)) (mode : PathMode)
    (total : ℕ) :
    (quotaEntries bands mode total).length = bands.length := by
  simp [quotaEntries, List.length_zip, modeWeights_length]

theorem quotaEntries_mem (bands : List (ℤ × List Problem)) (mode : PathMode)
    (total : ℕ) :
    ∀ e ∈ quotaEntries bands mode total,
      ∃ b ∈ bands, e.1 = b.1 ∧ e.2.2 = b.2.length ∧ e.2.1 ≤ e.2.2 ∧
        (b.2 ≠ [] → 1 ≤ e.2.1) := by
  intro e he
  simp only [quotaEntries] at he
  obtain ⟨wb, hwb, rfl⟩ := List.mem_map.mp he
  refine ⟨wb.2, (List.of_mem_zip hwb).2, rfl, rfl, ?_, ?_⟩
  · simp only [initialQuota]
    exact min_le_right _ _
  · intro hne
    have hpos : 1 ≤ wb.2.2.length := List.length_pos.mpr hne
    simp only [initialQuota]
    exact le_min (le_max_left _ _) hpos

theorem initialQuotas_keys (bands : List (ℤ × List Problem)) (mode : PathMode)
    (total : ℕ) :
    (initialQuotas bands mode total).map (·.1) = bands.map (·.1) := by
  simp only [initialQuotas, List.map_map, Function.comp]
  exact quotaEntries_keys bands mode total

theorem initialQuotas_snd (bands : List (ℤ × List Problem)) (mode : PathMode)
    (total : ℕ) :
    (initialQuotas bands mode total).map (·.2)
      = (quotaEntries bands mode total).map (·.2.1) := by
  simp only [initialQuotas, List.map_map]
  rfl

theorem initialQuotas_mem (bands : List (ℤ × List Problem)) (mode : PathMode)
    (total : ℕ) :
    ∀ kq ∈ initialQuotas bands mode total,
      ∃ b ∈ bands, kq.1 = b.1 ∧ kq.2 ≤ b.2.length ∧ (b.2 ≠ [] → 1 ≤ kq.2) := by
  intro kq hkq
  simp only [initialQuotas] at hkq
  obtain ⟨e, he, rfl⟩ := List.mem_map.mp hkq
  obtain ⟨b, hb, h1, h2, h3, h4⟩ := quotaEntries_mem bands mode total e he
  exact ⟨b, hb, h1, h2 ▸ h3, h4⟩

theorem length_le_sum_of_one_le :
    ∀ (l : List ℕ), (∀ x ∈ l, 1 ≤ x) → l.length ≤ l.sum := by
  intro l
  induction l with
  | nil => intro _; simp
  | cons a t ih =>
    intro h
    have ha : 1 ≤ a := h a (List.mem_cons_self _ _)
    have ht := ih fun x hx => h x (List.mem_cons_of_mem _ hx)
    simp only [List.length_cons, List.sum_cons]
    omega

theorem spare_sum_add :
    ∀ (l : List (ℤ × ℕ × ℕ)), (∀ e ∈ l, e.2.1 ≤ e.2.2) →
      ((l.map fun e => e.2.2 - e.2.1).sum) + (l.map (·.2.1)).sum
        = (l.map (·.2.2)).sum := by
  intro l
  induction l with
  | nil => intro _; simp
  | cons e t ih =>
    intro h
    have he : e.2.1 ≤ e.2.2 := h e (List.mem_cons_self _ _)
    have ht := ih fun x hx => h x (List.mem_cons_of_mem _ hx)
    simp only [List.map_cons, List.sum_cons]
    omega

theorem pred_sum_add :
    ∀ (l : List (ℤ × ℕ)), (∀ e ∈ l, 1 ≤ e.2) →
      ((l.map fun e => e.2 - 1).sum) + l.length = (l.map (·.2)).sum := by
  intro l
  induction l with
  | nil => intro _; simp
  | cons e t ih =>
    intro h
    have he : 1 ≤ e.2 := h e (List.mem_cons_self _ _)
    have ht := ih fun x hx => h x (List.mem_cons_of_mem _ hx)
    simp only [List.map_cons, List.sum_cons, List.length_cons]
    omega

/-! ## Quota allocator master lemmas -/

theorem calculateBandQuotas_sum (bands : List (ℤ × List Problem)) (cfg : PathConfig)
    (hband : ∀ b ∈ bands, b.2 ≠ []) (hnd : (bands.map (·.1)).Nodup)
    (hne : bands ≠ []) :
    ((calculateBandQuotas bands cfg).map (·.2)).sum
      = max (min cfg.problemCount ((bands.map fun b => b.2.length).sum))
          bands.length := by
  have hn0 : ¬ bands.length = 0 := fun h => hne (List.length_eq_zero.mp h)
  have hemem : ∀ e ∈ quotaEntries bands cfg.mode cfg.problemCount,
      e.2.1 ≤ e.2.2 ∧ 1 ≤ e.2.1 := by
    intro e he
    obtain ⟨b, hb, _, _, h3, h4⟩ := quotaEntries_mem bands cfg.mode cfg.problemCount e he
    exact ⟨h3, h4 (hband b hb)⟩
  have hkeys := initialQuotas_keys bands cfg.mode cfg.problemCount
  have hindnd : ((initialQuotas bands cfg.mode cfg.problemCount).map (·.1)).Nodup := by
    rw [hkeys]; exact hnd
  have hsnd := initialQuotas_snd bands cfg.mode cfg.problemCount
  have hsizes := quotaEntries_sizes bands cfg.mode cfg.problemCount
  have helen := quotaEntries_length bands cfg.mode cfg.problemCount
  have hq_sum : ((initialQuotas bands cfg.mode cfg.problemCount).map (·.2)).sum
      = ((quotaEntries bands cfg.mode cfg.problemCount).map (·.2.1)).sum := by
    rw [hsnd]
  have hspare : (((quotaEntries bands cfg.mode cfg.problemCount).map
        fun e => e.2.2 - e.2.1).sum)
        + ((quotaEntries bands cfg.mode cfg.problemCount).map (·.2.1)).sum
      = ((quotaEntries bands cfg.mode cfg.problemCount).map (·.2.2)).sum :=
    spare_sum_add _ fun e he => (hemem e he).1
  have hS : ((quotaEntries bands cfg.mode cfg.problemCount).map (·.2.2)).sum
      = (bands.map fun b => b.2.length).sum := by rw [hsizes]
  have hn_le : bands.length
      ≤ ((quotaEntries bands cfg.mode cfg.problemCount).map (·.2.1)).sum := by
    have h1 : ((quotaEntries bands cfg.mode cfg.problemCount).map (·.2.1)).length
        = bands.length := by rw [List.length_map, helen]
    rw [← h1]
    apply length_le_sum_of_one_le
    intro x hx
    obtain ⟨e, he, rfl⟩ := List.mem_map.mp hx
    exact (hemem e he).2
  simp only [calculateBandQuotas, if_neg hn0]
  split_ifs with hpos hneg
  · -- shortfall branch
    have hsorted : (sizeDescOrder (quotaEntries bands cfg.mode cfg.problemCount)).Perm
        (quotaEntries bands cfg.mode cfg.problemCount) := List.perm_insertionSort _ _
    have hkeyseq : ((quotaEntries bands cfg.mode cfg.problemCount).map (·.1))
        = ((initialQuotas bands cfg.mode cfg.problemCount).map (·.1)) := by
      rw [quotaEntries_keys, initialQuotas_keys]
    have keyperm : ((addLoop
          ((cfg.problemCount : ℤ)
            - ((initialQuotas bands cfg.mode cfg.problemCount).map (·.2)).sum)
          (sizeDescOrder (quotaEntries bands cfg.mode cfg.problemCount))).map (·.1)).Perm
        ((initialQuotas bands cfg.mode cfg.problemCount).map (·.1)) := by
      rw [addLoop_keys, ← hkeyseq]
      exact hsorted.map _
    rw [sum_map_lookup _ _ keyperm hindnd]
    rw [addLoop_sum _ _ (le_of_lt hpos)
      (fun e he => (hemem e (hsorted.subset he)).1)]
    have t1 : ((sizeDescOrder (quotaEntries bands cfg.mode cfg.problemCount)).map
        (·.2.1)).sum = ((quotaEntries bands cfg.mode cfg.problemCount).map (·.2.1)).sum :=
      (hsorted.map _).sum_eq
    have t2 : ((sizeDescOrder (quotaEntries bands cfg.mode cfg.problemCount)).map
        fun e => e.2.2 - e.2.1).sum
        = (((quotaEntries bands cfg.mode cfg.problemCount).map
            fun e => e.2.2 - e.2.1)).sum :=
      (hsorted.map _).sum_eq
    rw [t1, t2]
    omega
  · -- surplus branch
    have hsorted : (quotaDescOrder (initialQuotas bands cfg.mode cfg.problemCount)).Perm
        (initialQuotas bands cfg.mode cfg.problemCount) := List.perm_insertionSort _ _
    have hone : ∀ e ∈ quotaDescOrder (initialQuotas bands cfg.mode cfg.problemCount),
        1 ≤ e.2 := by
      intro e he
      obtain ⟨b, hb, _, _, h4⟩ :=
        initialQuotas_mem bands cfg.mode cfg.problemCount e (hsorted.subset he)
      exact h4 (hband b hb)
    have keyperm : ((removeLoop
          ((cfg.problemCount : ℤ)
            - ((initialQuotas bands cfg.mode cfg.problemCount).map (·.2)).sum)
          (quotaDescOrder (initialQuotas bands cfg.mode cfg.problemCount))).map (·.1)).Perm
        ((initialQuotas bands cfg.mode cfg.problemCount).map (·.1)) := by
      rw [removeLoop_keys]
      exact hsorted.map _
    rw [sum_map_lookup _ _ keyperm hindnd]
    rw [removeLoop_sum _ _ (le_of_lt hneg) hone]
    have t1 : ((quotaDescOrder (initialQuotas bands cfg.mode cfg.problemCount)).map
        (·.2)).sum = ((initialQuotas bands cfg.mode cfg.problemCount).map (·.2)).sum :=
      (hsorted.map _).sum_eq
    have t2 := pred_sum_add _ hone
    have t3 : (quotaDescOrder (initialQuotas bands cfg.mode cfg.problemCount)).length
        = bands.length := by
      rw [hsorted.length_eq]
      simp only [initialQuotas, List.length_map]
      exact helen
    rw [t1] at *
    omega
  · -- exact-fit branch
    omega

theorem calculateBandQuotas_bounds (bands : List (ℤ × List Problem)) (cfg : PathConfig)
    (hband : ∀ b ∈ bands, b.2 ≠ []) (hnd : (bands.map (·.1)).Nodup) :
    ∀ kq ∈ calculateBandQuotas bands cfg,
      1 ≤ kq.2 ∧ kq.2 ≤ ((bands.lookup kq.1).getD []).length := by
  intro kq hkq
  have hbase : ∀ kq0 ∈ initialQuotas bands cfg.mode cfg.problemCount,
      1 ≤ kq0.2 ∧ ((bands.lookup kq0.1).getD []) ≠ [] ∧
        kq0.2 ≤ ((bands.lookup kq0.1).getD []).length := by
    intro kq0 h0
    obtain ⟨b, hb, h1, h2, h3⟩ := initialQuotas_mem bands cfg.mode cfg.problemCount kq0 h0
    have hlk : bands.lookup kq0.1 = some b.2 := by
      rw [h1]
      exact lookup_eq_some_of_mem bands hnd (by rw [Prod.mk.eta]; exact hb)
    rw [hlk]
    exact ⟨h3 (hband b hb), hband b hb, h2⟩
  have hentry : ∀ e ∈ quotaEntries bands cfg.mode cfg.problemCount,
      1 ≤ e.2.1 ∧ e.2.1 ≤ e.2.2 ∧
        e.2.2 = ((bands.lookup e.1).getD []).length := by
    intro e he
    obtain ⟨b, hb, h1, h2, h3, h4⟩ := quotaEntries_mem bands cfg.mode cfg.problemCount e he
    have hlk : bands.lookup e.1 = some b.2 := by
      rw [h1]
      exact lookup_eq_some_of_mem bands hnd (by rw [Prod.mk.eta]; exact hb)
    rw [hlk]
    exact ⟨h4 (hband b hb), h3, h2⟩
  by_cases hn0 : bands.length = 0
  · simp [calculateBandQuotas, hn0] at hkq
  simp only [calculateBandQuotas, if_neg hn0] at hkq
  split_ifs at hkq with hpos hneg
  · -- shortfall branch
    obtain ⟨kq0, h0, hkey, hval⟩ := mem_map_lookup _ _ kq hkq
    rcases hval with hv | hv
    · obtain ⟨hb1, _, hb3⟩ := hbase kq0 h0
      rw [hkey, hv]
      exact ⟨hb1, hb3⟩
    · have hsorted : (sizeDescOrder (quotaEntries bands cfg.mode cfg.problemCount)).Perm
          (quotaEntries bands cfg.mode cfg.problemCount) := List.perm_insertionSort _ _
      obtain ⟨e, he, he1, he2, he3⟩ := addLoop_mem _ _
        (fun e he => (hentry e (hsorted.subset he)).2.1) (kq0.1, kq.2) hv
      obtain ⟨hf1, _, hf3⟩ := hentry e (hsorted.subset he)
      refine ⟨le_trans hf1 he2, ?_⟩
      rw [hkey]
      have : kq0.1 = e.1 := he1
      rw [this, ← hf3]
      exact he3
  · -- surplus branch
    obtain ⟨kq0, h0, hkey, hval⟩ := mem_map_lookup _ _ kq hkq
    rcases hval with hv | hv
    · obtain ⟨hb1, _, hb3⟩ := hbase kq0 h0
      rw [hkey, hv]
      exact ⟨hb1, hb3⟩
    · have hsorted : (quotaDescOrder (initialQuotas bands cfg.mode cfg.problemCount)).Perm
          (initialQuotas bands cfg.mode cfg.problemCount) := List.perm_insertionSort _ _
      obtain ⟨e, he, he1, he2, he3⟩ := removeLoop_mem _ _
        (fun e he => (hbase e (hsorted.subset he)).1) (kq0.1, kq.2) hv
      obtain ⟨_, _, hf3⟩ := hbase e (hsorted.subset he)
      refine ⟨he2, ?_⟩
      rw [hkey]
      have hk : kq0.1 = e.1 := he1
      rw [hk]
      exact le_trans he3 hf3
  · -- exact-fit branch
    obtain ⟨hb1, _, hb3⟩ := hbase kq hkq
    exact ⟨hb1, hb3⟩

theorem mapback_keys (init vis : List (ℤ × ℕ)) :
    ((init.map fun kq => (kq.1, (vis.lookup kq.1).getD kq.2)).map (·.1))
      = init.map (·.1) := by
  rw [List.map_map]
  rfl

theorem calculateBandQuotas_keys (bands : List (ℤ × List Problem)) (cfg : PathConfig) :
    (calculateBandQuotas bands cfg).map (·.1) = bands.map (·.1) := by
  by_cases hn0 : bands.length = 0
  · have hb : bands = [] := List.length_eq_zero.mp hn0
    subst hb
    simp [calculateBandQuotas]
  simp only [calculateBandQuotas, if_neg hn0]
  split_ifs with h1 h2
  · rw [mapback_keys, initialQuotas_keys]
  · rw [mapback_keys, initialQuotas_keys]
  · rw [initialQuotas_keys]

/-- C1 amended: for every mode and every non-empty family of non-empty
bands with distinct keys, the quotas always sum to
`max(min(problemCount, sum(bandSizes)), numberOfBands)`; in particular,
whenever `problemCount` is at least the number of bands they sum to
`min(problemCount, sum(bandSizes))` as the original claim states, while
below that threshold the sum stays at the number of bands (exceeding the
target, as the counterexample exhibits).  Every band receives a quota of
at least 1 unconditionally. -/
theorem quotaAllocator_sum_and_floor (bands : List (ℤ × List Problem))
    (cfg : PathConfig) (hband : ∀ b ∈ bands, b.2 ≠ [])
    (hnd : (bands.map (·.1)).Nodup) (hne : bands ≠ []) :
    ((calculateBandQuotas bands cfg).map (·.2)).sum
        = max (min cfg.problemCount ((bands.map fun b => b.2.length).sum))
            bands.length ∧
      (bands.length ≤ cfg.problemCount →
        ((calculateBandQuotas bands cfg).map (·.2)).sum
          = min cfg.problemCount ((bands.map fun b => b.2.length).sum)) ∧
      ∀ kq ∈ calculateBandQuotas bands cfg, 1 ≤ kq.2 := by
  have hsum := calculateBandQuotas_sum bands cfg hband hnd hne
  have hS : bands.length ≤ (bands.map fun b => b.2.length).sum := by
    have hl : (bands.map fun b => b.2.length).length = bands.length :=
      List.length_map ..
    rw [← hl]
    apply length_le_sum_of_one_le
    intro x hx
    obtain ⟨b, hb, rfl⟩ := List.mem_map.mp hx
    exact List.length_pos.mpr (hband b hb)
  refine ⟨hsum, ?_, ?_⟩
  · intro hcount
    rw [hsum]
    omega
  · intro kq hkq
    exact (calculateBandQuotas_bounds bands cfg hband hnd kq hkq).1

/-- Witness for `quotaAllocator_sum_and_floor` on two bands of two
problems asked for three: quotas 1 and 2 summing to
`max (min 3 4) 2 = min 3 4 = 3`. -/
theorem quotaAllocator_sum_and_floor_witness :
    ((∀ b ∈ twoBandPairs, b.2 ≠ []) ∧ (twoBandPairs.map (·.1)).Nodup ∧
        twoBandPairs ≠ []) ∧
      (((calculateBandQuotas twoBandPairs twoBandConfig).map (·.2)).sum
          = max (min twoBandConfig.problemCount
              ((twoBandPairs.map fun b => b.2.length).sum))
              twoBandPairs.length ∧
        (twoBandPairs.length ≤ twoBandConfig.problemCount →
          ((calculateBandQuotas twoBandPairs twoBandConfig).map (·.2)).sum
            = min twoBandConfig.problemCount
                ((twoBandPairs.map fun b => b.2.length).sum)) ∧
        ∀ kq ∈ calculateBandQuotas twoBandPairs twoBandConfig, 1 ≤ kq.2) :=
  ⟨⟨by decide, by decide, by decide⟩,
    quotaAllocator_sum_and_floor twoBandPairs twoBandConfig
      (by decide) (by decide) (by decide)⟩

/-- C7 amended: whenever the initial quotas fall short of `targetCount`,
the allocator distributes the shortfall greedily over the bands sorted by
descending band size (`len(bands[key])`, stable, ties toward the lower
key) — each visited band receiving the smaller of its spare capacity and
what remains of the shortfall — not by descending spare capacity as the
spec says (the counterexample exhibits the difference). -/
theorem shortfall_filled_by_size_order (bands : List (ℤ × List Problem))
    (cfg : PathConfig)
    (hshort : ((initialQuotas bands cfg.mode cfg.problemCount).map (·.2)).sum
      < cfg.problemCount) :
    calculateBandQuotas bands cfg
      = (initialQuotas bands cfg.mode cfg.problemCount).map fun kq =>
          (kq.1, ((greedyFill
              ((cfg.problemCount : ℤ)
                - ((((initialQuotas bands cfg.mode cfg.problemCount).map (·.2)).sum : ℕ) : ℤ))
              (sizeDescOrder (quotaEntries bands cfg.mode cfg.problemCount))).lookup
            kq.1).getD kq.2) := by
  by_cases hn0 : bands.length = 0
  · have hb : bands = [] := List.length_eq_zero.mp hn0
    subst hb
    simp [calculateBandQuotas, initialQuotas, quotaEntries]
  have hpos : (0 : ℤ) < (cfg.problemCount : ℤ)
      - (((initialQuotas bands cfg.mode cfg.problemCount).map (·.2)).sum : ℕ) := by
    omega
  simp only [calculateBandQuotas, if_neg hn0]
  rw [if_pos hpos]
  have hsorted : (sizeDescOrder (quotaEntries bands cfg.mode cfg.problemCount)).Perm
      (quotaEntries bands cfg.mode cfg.problemCount) := List.perm_insertionSort _ _
  have hqs : ∀ e ∈ sizeDescOrder (quotaEntries bands cfg.mode cfg.problemCount),
      e.2.1 ≤ e.2.2 := by
    intro e he
    obtain ⟨b, hb, _, _, h3, _⟩ :=
      quotaEntries_mem bands cfg.mode cfg.problemCount e (hsorted.subset he)
    exact h3
  rw [addLoop_eq_greedyFill _ _ (le_of_lt hpos) hqs]

/-- Witness for `shortfall_filled_by_size_order` at the size-skewed
CHALLENGE example, whose initial quotas 2, 4, 5 fall one short of 12. -/
theorem shortfall_filled_by_size_order_witness :
    (((initialQuotas challengeSkewBands challengeSkewConfig.mode
          challengeSkewConfig.problemCount).map (·.2)).sum
        < challengeSkewConfig.problemCount) ∧
      (calculateBandQuotas challengeSkewBands challengeSkewConfig
        = (initialQuotas challengeSkewBands challengeSkewConfig.mode
            challengeSkewConfig.problemCount).map fun kq =>
            (kq.1, ((greedyFill
                ((challengeSkewConfig.problemCount : ℤ)
                  - ((((initialQuotas challengeSkewBands challengeSkewConfig.mode
                      challengeSkewConfig.problemCount).map (·.2)).sum : ℕ) : ℤ))
                (sizeDescOrder (quotaEntries challengeSkewBands
                  challengeSkewConfig.mode challengeSkewConfig.problemCount))).lookup
              kq.1).getD kq.2)) :=
  ⟨by decide,
    shortfall_filled_by_size_order challengeSkewBands challengeSkewConfig (by decide)⟩

/-! ## Band partition lemmas -/

theorem partition_keys_nodup (problems : List Problem) (cfg : PathConfig) :
    ((partitionIntoBands problems cfg).map (·.1)).Nodup := by
  simp only [partitionIntoBands, List.map_map]
  have hco : ((fun x : ℤ × List Problem => x.1) ∘ fun k : ℤ =>
      (k, sortByScoreDesc (problems.filter fun p =>
        ratingKey cfg.ratingStep p = some k))) = fun k : ℤ => k := rfl
  rw [hco, List.map_id']
  exact (List.perm_insertionSort _ _).nodup_iff.mpr
    (List.nodup_dedup _)

theorem partition_band_mem (problems : List Problem) (cfg : PathConfig) :
    ∀ b ∈ partitionIntoBands problems cfg,
      b.2 ≠ [] ∧ (b.2.Perm (problems.filter fun p =>
          ratingKey cfg.ratingStep p = some b.1)) ∧
        ∀ p ∈ b.2, p ∈ problems ∧ ratingKey cfg.ratingStep p = some b.1 := by
  intro b hb
  simp only [partitionIntoBands] at hb
  obtain ⟨k, hk, rfl⟩ := List.mem_map.mp hb
  dsimp only
  have hkmem : k ∈ (problems.filterMap (ratingKey cfg.ratingStep)).dedup :=
    (List.perm_insertionSort _ _).subset hk
  rw [List.mem_dedup] at hkmem
  obtain ⟨p0, hp0, hkey0⟩ := List.mem_filterMap.mp hkmem
  have hperm : (sortByScoreDesc (problems.filter fun p =>
      ratingKey cfg.ratingStep p = some k)).Perm
      (problems.filter fun p => ratingKey cfg.ratingStep p = some k) :=
    List.perm_insertionSort _ _
  refine ⟨?_, hperm, ?_⟩
  · intro hempty
    have : p0 ∈ problems.filter fun p => ratingKey cfg.ratingStep p = some k := by
      simp only [List.mem_filter]
      exact ⟨hp0, by simp [hkey0]⟩
    rw [← hperm.mem_iff] at this
    rw [hempty] at this
    exact List.not_mem_nil p0 this
  · intro p hp
    have hmem : p ∈ problems.filter fun q => ratingKey cfg.ratingStep q = some k :=
      hperm.subset hp
    simp only [List.mem_filter, decide_eq_true_eq] at hmem
    exact hmem

theorem flatten_map_perm {κ : Type} (f g : κ → List Problem) :
    ∀ (ks : List κ), (∀ k ∈ ks, (f k).Perm (g k)) →
      ((ks.map f).flatten).Perm ((ks.map g).flatten) := by
  intro ks
  induction ks with
  | nil => intro _; simp
  | cons k t ih =>
    intro h
    simp only [List.map_cons, List.flatten_cons]
    exact (h k (List.mem_cons_self _ _)).append
      (ih fun x hx => h x (List.mem_cons_of_mem _ hx))

theorem flatten_filters_perm (key : Problem → Option ℤ) :
    ∀ (ks : List ℤ), ks.Nodup → ∀ (l : List Problem),
      (∀ p ∈ l, ∃ k ∈ ks, key p = some k) →
      ((ks.map fun k => l.filter fun p => key p = some k).flatten).Perm l := by
  intro ks
  induction ks with
  | nil =>
    intro _ l hcov
    have : l = [] := by
      rcases l with _ | ⟨p, t⟩
      · rfl
      · obtain ⟨k, hk, _⟩ := hcov p (List.mem_cons_self _ _)
        exact absurd hk (List.not_mem_nil k)
    simp [this]
  | cons k t ih =>
    intro hnd l hcov
    rw [List.nodup_cons] at hnd
    simp only [List.map_cons, List.flatten_cons]
    have hothers : ∀ k' ∈ t,
        l.filter (fun p => key p = some k')
          = (l.filter fun p => ¬ (key p = some k)).filter
              fun p => key p = some k' := by
      intro k' hk'
      have hkk : k' ≠ k := fun h => hnd.1 (h ▸ hk')
      rw [List.filter_filter]
      apply List.filter_congr
      intro p _
      by_cases h : key p = some k'
      · have hnk : ¬ (key p = some k) := by
          rw [h]
          intro hc
          exact hkk (Option.some.injEq .. |>.mp hc.symm).symm
        simp [h, hnk, hkk, decide_not]
      · simp [h, decide_not]
    have hmapeq : (t.map fun k' => l.filter fun p => key p = some k')
        = t.map fun k' => (l.filter fun p => ¬ (key p = some k)).filter
            fun p => key p = some k' :=
      List.map_congr_left hothers
    rw [hmapeq]
    have hcov' : ∀ p ∈ (l.filter fun p => ¬ (key p = some k)),
        ∃ k' ∈ t, key p = some k' := by
      intro p hp
      simp only [List.mem_filter, decide_eq_true_eq] at hp
      obtain ⟨k', hk', hkey⟩ := hcov p hp.1
      rcases List.mem_cons.mp hk' with h | h
      · exact absurd (h ▸ hkey) (by simpa using hp.2)
      · exact ⟨k', h, hkey⟩
    have hrec := ih hnd.2 (l.filter fun p => ¬ (key p = some k)) hcov'
    refine (hrec.append_left _).trans ?_
    have hdn : (fun p : Problem => decide (¬ key p = some k))
        = fun p : Problem => !decide (key p = some k) := by
      funext p
      exact decide_not ..
    rw [hdn]
    exact List.filter_append_perm _ l

theorem partition_flatten_perm (problems : List Problem) (cfg : PathConfig)
    (hrated : ∀ p ∈ problems, (ratingKey cfg.ratingStep p).isSome) :
    (((partitionIntoBands problems cfg).map (·.2)).flatten).Perm problems := by
  simp only [partitionIntoBands, List.map_map]
  have hco : ((fun x : ℤ × List Problem => x.2) ∘ fun k : ℤ =>
      (k, sortByScoreDesc (problems.filter fun p =>
        ratingKey cfg.ratingStep p = some k)))
      = fun k : ℤ => sortByScoreDesc (problems.filter fun p =>
          ratingKey cfg.ratingStep p = some k) := rfl
  rw [hco]
  have hsortkeys : ((problems.filterMap
      (ratingKey cfg.ratingStep)).dedup.insertionSort (· ≤ ·)).Nodup :=
    (List.perm_insertionSort _ _).nodup_iff.mpr (List.nodup_dedup _)
  refine (flatten_map_perm _ _ _ fun k _ => List.perm_insertionSort _ _).trans ?_
  apply flatten_filters_perm (ratingKey cfg.ratingStep) _ hsortkeys
  intro p hp
  obtain ⟨k, hk⟩ := Option.isSome_iff_exists.mp (hrated p hp)
  refine ⟨k, ?_, hk⟩
  refine (List.perm_insertionSort _ _).mem_iff.mpr ?_
  rw [List.mem_dedup]
  exact List.mem_filterMap.mpr ⟨p, hp, hk⟩

/-! ## Weighted sampler lemmas -/

theorem educationalScore_nonneg (p : Problem) : 0 ≤ educationalScore p := by
  unfold educationalScore
  refine add_nonneg (add_nonneg ?_ ?_) ?_
  · split
    · refine le_min (mul_nonneg (Real.logb_nonneg (by norm_num) ?_) (by norm_num))
        (by norm_num)
      have h0 : (0 : ℝ) ≤ (p.solvedCount : ℝ) := Nat.cast_nonneg _
      linarith
    · exact le_refl 0
  · split <;> norm_num
  · split_ifs <;> norm_num

theorem headD_mem_of_ne_nil {α : Type} (l : List α) (d : α) (h : l ≠ []) :
    l.headD d ∈ l := by
  cases l with
  | nil => exact absurd rfl h
  | cons a t => simp

theorem wsWalk_mem (w : ℕ → ℝ) (r : ℝ) :
    ∀ (l : List ℕ) (c : ℝ) (i : ℕ), wsWalk w r c l = some i → i ∈ l := by
  intro l
  induction l with
  | nil => intro c i h; simp [wsWalk] at h
  | cons j rest ih =>
    intro c i h
    rw [wsWalk] at h
    split_ifs at h with hc
    · obtain rfl : j = i := Option.some.injEq .. |>.mp h
      exact List.mem_cons_self _ _
    · exact List.mem_cons_of_mem _ (ih _ i h)

theorem wsChosen_mem (w : ℕ → ℝ) (r : ℝ) (remaining : List ℕ)
    (h : remaining ≠ []) :
    ((wsWalk w r 0 remaining).getD (remaining.headD 0)) ∈ remaining := by
  rcases hw : wsWalk w r 0 remaining with _ | i
  · simp only [Option.getD_none]
    exact headD_mem_of_ne_nil remaining 0 h
  · simp only [Option.getD_some]
    exact wsWalk_mem w r remaining 0 i hw

theorem wsGo_length (items : List Problem) (w : ℕ → ℝ) (draws : ℕ → ℝ)
    (hw : ∀ i, 0 < w i) :
    ∀ (fuel : ℕ) (remaining : List ℕ) (acc : List Problem),
      fuel ≤ remaining.length →
      (wsGo items w draws fuel remaining acc).length = acc.length + fuel := by
  intro fuel
  induction fuel with
  | zero => intro remaining acc _; simp [wsGo]
  | succ n ih =>
    intro remaining acc hfuel
    have hne : remaining ≠ [] := by
      intro h
      rw [h] at hfuel
      simp at hfuel
    have hpos : 0 < (remaining.map w).sum := by
      apply List.sum_pos
      · intro x hx
        obtain ⟨i, _, rfl⟩ := List.mem_map.mp hx
        exact hw i
      · simpa using hne
    rw [wsGo, if_neg (not_le.mpr hpos)]
    have hchosen : ((wsWalk w (draws acc.length) 0 remaining).getD
        (remaining.headD 0)) ∈ remaining := wsChosen_mem _ _ _ hne
    rw [ih _ _ (by rw [List.length_erase_of_mem hchosen]; omega)]
    simp only [List.length_append, List.length_cons, List.length_nil]
    omega

theorem weightedSample_length (items : List Problem) (k : ℕ) (draws : ℕ → ℝ) :
    (weightedSample items k draws).length = min k items.length := by
  unfold weightedSample
  split_ifs with h
  · omega
  · rw [wsGo_length items _ draws
      (fun i => by
        have := educationalScore_nonneg (items.getD i default)
        linarith)
      k (List.range items.length) [] (by simpa using le_of_not_le h)]
    simp
    omega

theorem wsGo_nodup (items : List Problem) (w : ℕ → ℝ) (draws : ℕ → ℝ)
    (hitems : (items.map (·.id)).Nodup) :
    ∀ (fuel : ℕ) (remaining : List ℕ) (acc : List Problem),
      remaining.Nodup → (∀ i ∈ remaining, i < items.length) →
      (acc.map (·.id)).Nodup → (∀ p ∈ acc, p ∈ items) →
      (∀ i ∈ remaining, ∀ p ∈ acc, (items.getD i default).id ≠ p.id) →
      ((wsGo items w draws fuel remaining acc).map (·.id)).Nodup ∧
        ∀ p ∈ wsGo items w draws fuel remaining acc, p ∈ items := by
  intro fuel
  induction fuel with
  | zero => intro remaining acc _ _ h3 h4 _; exact ⟨h3, h4⟩
  | succ n ih =>
    intro remaining acc h1 h2 h3 h4 h5
    by_cases htot : (remaining.map w).sum ≤ 0
    · rw [wsGo, if_pos htot]
      exact ⟨h3, h4⟩
    · rw [wsGo, if_neg htot]
      have hne : remaining ≠ [] := by
        intro h
        rw [h] at htot
        simp at htot
      set chosen := (wsWalk w (draws acc.length) 0 remaining).getD
        (remaining.headD 0) with hchdef
      have hch : chosen ∈ remaining := wsChosen_mem _ _ _ hne
      have hlt : chosen < items.length := h2 chosen hch
      have hgetd : items.getD chosen default = items[chosen] :=
        List.getD_eq_getElem items default hlt
      have hmem : items.getD chosen default ∈ items := by
        rw [hgetd]
        exact List.getElem_mem hlt
      apply ih
      · exact h1.erase chosen
      · intro i hi
        exact h2 i (List.mem_of_mem_erase hi)
      · rw [List.map_append]
        rw [List.nodup_append]
        refine ⟨h3, by simp, ?_⟩
        intro a ha hb
        simp only [List.map_cons, List.map_nil, List.mem_singleton] at hb
        obtain ⟨p, hp, rfl⟩ := List.mem_map.mp ha
        exact h5 chosen hch p hp hb.symm
      · intro p hp
        rcases List.mem_append.mp hp with h | h
        · exact h4 p h
        · rw [List.mem_singleton.mp h]
          exact hmem
      · intro i hi p hp
        have hi' : i ≠ chosen ∧ i ∈ remaining := (h1.mem_erase_iff).mp hi
        rcases List.mem_append.mp hp with h | h
        · exact h5 i hi'.2 p h
        · rw [List.mem_singleton.mp h]
          intro hid
          have hilt : i < items.length := h2 i hi'.2
          have hne2 : items.getD i default ≠ items.getD chosen default := by
            rw [hgetd, List.getD_eq_getElem items default hilt]
            intro heq
            have hnd : items.Nodup := hitems.of_map _
            have := (List.Nodup.get_inj_iff hnd
              (i := ⟨i, hilt⟩) (j := ⟨chosen, hlt⟩)).mp (by
                simpa [List.get_eq_getElem] using heq)
            exact hi'.1 (by simpa using congrArg Fin.val this)
          exact hne2 (List.inj_on_of_nodup_map hitems
            (by rw [List.getD_eq_getElem items default hilt]
                exact List.getElem_mem hilt) hmem hid)

theorem weightedSample_nodup_subset (items : List Problem) (k : ℕ) (draws : ℕ → ℝ)
    (h : (items.map (·.id)).Nodup) :
    ((weightedSample items k draws).map (·.id)).Nodup ∧
      ∀ p ∈ weightedSample items k draws, p ∈ items := by
  unfold weightedSample
  split_ifs with hk
  · exact ⟨h, fun p hp => hp⟩
  · exact wsGo_nodup items _ draws h k (List.range items.length) []
      (List.nodup_range _) (fun i hi => List.mem_range.mp hi)
      (by simp) (by simp) (by simp)

/-! ## Band selection lemmas -/

theorem band_pick_length (available : List Problem) (c : ℕ) (dr : ℕ → ℝ)
    (hc : c ≤ available.length) :
    (if available.isEmpty then ([] : List Problem)
     else weightedSample
        (available.take (min ((min c available.length) * 3) available.length))
        (min c available.length) dr).length = c := by
  split_ifs with h
  · have hav : available = [] := List.isEmpty_iff.mp h
    subst hav
    simp only [List.length_nil] at hc
    simp only [List.length_nil]
    omega
  · rw [weightedSample_length, List.length_take]
    omega

theorem selectFromBands_length (bands : List (ℤ × List Problem))
    (quotas : List (ℤ × ℕ)) (draws : ℤ → ℕ → ℝ)
    (hq : ∀ kq ∈ quotas, kq.2 ≤ ((bands.lookup kq.1).getD []).length) :
    (selectFromBands bands quotas draws).length = (quotas.map (·.2)).sum := by
  unfold selectFromBands
  rw [List.length_flatten, List.map_map]
  congr 1
  apply List.map_congr_left
  intro kc hkc
  exact band_pick_length ((bands.lookup kc.1).getD []) kc.2 (draws kc.1) (hq kc hkc)

theorem selectFromBands_nodup_subset (bands : List (ℤ × List Problem))
    (quotas : List (ℤ × ℕ)) (draws : ℤ → ℕ → ℝ) (candidates : List Problem)
    (step : ℤ)
    (hcand : (candidates.map (·.id)).Nodup)
    (hbandnd : ∀ b ∈ bands, (b.2.map (·.id)).Nodup)
    (hbandmem : ∀ b ∈ bands, ∀ p ∈ b.2, p ∈ candidates ∧
      ratingKey step p = some b.1)
    (hqkeys : (quotas.map (·.1)).Nodup) :
    ((selectFromBands bands quotas draws).map (·.id)).Nodup ∧
      ∀ p ∈ selectFromBands bands quotas draws, p ∈ candidates := by
  have havail : ∀ k : ℤ, ((((bands.lookup k).getD []).map (·.id)).Nodup ∧
      ∀ p ∈ (bands.lookup k).getD [], p ∈ candidates ∧
        ratingKey step p = some k) := by
    intro k
    rcases hlk : bands.lookup k with _ | b2
    · simp
    · have hmem : (k, b2) ∈ bands := lookup_mem hlk
      simp only [Option.getD_some]
      exact ⟨hbandnd (k, b2) hmem, fun p hp => hbandmem (k, b2) hmem p hp⟩
  have hpool : ∀ kc : ℤ × ℕ,
      (((((bands.lookup kc.1).getD []).take
          (min ((min kc.2 ((bands.lookup kc.1).getD []).length) * 3)
            ((bands.lookup kc.1).getD []).length)).map (·.id)).Nodup) := by
    intro kc
    exact List.Nodup.sublist ((List.take_sublist _ _).map _) (havail kc.1).1
  have hbody : ∀ kc : ℤ × ℕ,
      (((if ((bands.lookup kc.1).getD []).isEmpty then ([] : List Problem)
        else weightedSample
          (((bands.lookup kc.1).getD []).take
            (min ((min kc.2 ((bands.lookup kc.1).getD []).length) * 3)
              ((bands.lookup kc.1).getD []).length))
          (min kc.2 ((bands.lookup kc.1).getD []).length)
          (draws kc.1)).map (·.id)).Nodup) ∧
        ∀ p ∈ (if ((bands.lookup kc.1).getD []).isEmpty then ([] : List Problem)
          else weightedSample
            (((bands.lookup kc.1).getD []).take
              (min ((min kc.2 ((bands.lookup kc.1).getD []).length) * 3)
                ((bands.lookup kc.1).getD []).length))
            (min kc.2 ((bands.lookup kc.1).getD []).length)
            (draws kc.1)),
          p ∈ candidates ∧ ratingKey step p = some kc.1 := by
    intro kc
    split_ifs with h
    · simp
    · obtain ⟨hnod, hsub⟩ := weightedSample_nodup_subset _
        (min kc.2 ((bands.lookup kc.1).getD []).length) (draws kc.1) (hpool kc)
      refine ⟨hnod, ?_⟩
      intro p hp
      have hpav : p ∈ (bands.lookup kc.1).getD [] :=
        List.take_subset _ _ (hsub p hp)
      exact (havail kc.1).2 p hpav
  constructor
  · unfold selectFromBands
    rw [List.map_flatten, List.nodup_flatten, List.map_map]
    constructor
    · intro l hl
      obtain ⟨kc, _, rfl⟩ := List.mem_map.mp hl
      exact (hbody kc).1
    · rw [List.pairwise_map]
      have hpw : quotas.Pairwise (fun a b => a.1 ≠ b.1) := by
        have h2 : (quotas.map (·.1)).Pairwise (· ≠ ·) := hqkeys
        rw [List.pairwise_map] at h2
        exact h2
      apply hpw.imp
      intro a b hab
      intro x hxa hxb
      obtain ⟨p, hp, rfl⟩ := List.mem_map.mp hxa
      obtain ⟨p', hp', hid⟩ := List.mem_map.mp hxb
      obtain ⟨hpc, hpk⟩ := (hbody a).2 p hp
      obtain ⟨hpc', hpk'⟩ := (hbody b).2 p' hp'
      have hne : p ≠ p' := by
        intro hpp
        rw [hpp, hpk'] at hpk
        exact hab (Option.some.injEq .. |>.mp hpk).symm
      exact hne (List.inj_on_of_nodup_map hcand hpc hpc' hid.symm)
  · intro p hp
    unfold selectFromBands at hp
    obtain ⟨l, hl, hpl⟩ := List.mem_flatten.mp hp
    obtain ⟨kc, _, rfl⟩ := List.mem_map.mp hl
    exact ((hbody kc).2 p hpl).1

/-! ## Ordering lemmas -/

theorem splitRuns_flatten : ∀ l : List Problem, (splitRuns l).flatten = l
  | [] => by simp [splitRuns]
  | p :: rest => by
    rw [splitRuns]
    have ih := splitRuns_flatten (rest.dropWhile fun q => q.rating = p.rating)
    simp only [List.flatten_cons, ih, List.cons_append]
    rw [List.takeWhile_append_dropWhile]
termination_by l => l.length
decreasing_by
  simpa [Nat.lt_succ_iff] using
    (List.dropWhile_sublist (l := rest) fun q : Problem =>
      decide (q.rating = p.rating)).length_le

theorem processGroups_perm (shuf : ℕ → List Problem → List Problem)
    (hshuf : ∀ i g, (shuf i g).Perm g) :
    ∀ (gs : List (List Problem)) (i : ℕ),
      (processGroups shuf i gs).Perm gs.flatten := by
  intro gs
  induction gs with
  | nil => intro i; simp [processGroups]
  | cons g t ih =>
    intro i
    rw [processGroups, List.flatten_cons]
    refine List.Perm.append ?_ (ih (i + 1))
    split_ifs with h
    · refine ((hshuf (2 * i) _).append (hshuf (2 * i + 1) _)).trans ?_
      rw [List.take_append_drop]
    · exact List.Perm.refl g

open scoped Classical in
theorem orderProblems_perm (problems : List Problem)
    (shuf : ℕ → List Problem → List Problem)
    (hshuf : ∀ i g, (shuf i g).Perm g) :
    (orderProblems problems shuf).Perm problems := by
  unfold orderProblems
  refine (processGroups_perm shuf hshuf _ 0).trans ?_
  rw [splitRuns_flatten]
  exact List.perm_insertionSort _ _

/-! ## C3: generated path length -/

/-- C3: for every config, every candidate snapshot (each candidate rated,
as `_fetch_candidates` guarantees), and every sequence of random draws and
shuffles, the generated path has length
`min(problemCount, totalAvailableCandidates)`: quotas may oversum when
`problemCount` is below the band count, but the final `[:problem_count]`
truncation restores the bound, and when candidates are scarce every band
fills completely. -/
theorem generatePath_length (cfg : PathConfig) (candidates : List Problem)
    (draws : ℤ → ℕ → ℝ) (shuf : ℕ → List Problem → List Problem)
    (hrated : ∀ p ∈ candidates, p.rating.isSome)
    (hshuf : ∀ i g, (shuf i g).Perm g) :
    (generatePath cfg candidates draws shuf).length
      = min cfg.problemCount candidates.length := by
  by_cases hc : candidates.isEmpty
  · have h0 : candidates = [] := List.isEmpty_iff.mp hc
    subst h0
    simp [generatePath]
  · simp only [generatePath]
    rw [if_neg hc]
    have hkeyrated : ∀ p ∈ candidates, (ratingKey cfg.ratingStep p).isSome := by
      intro p hp
      have h := hrated p hp
      unfold ratingKey
      rcases hr : p.rating with _ | r
      · rw [hr] at h
        simp at h
      · simp
    have hflat := partition_flatten_perm candidates cfg hkeyrated
    have hband := partition_band_mem candidates cfg
    have hknd := partition_keys_nodup candidates cfg
    have hbne : ∀ b ∈ partitionIntoBands candidates cfg, b.2 ≠ [] :=
      fun b hb => (hband b hb).1
    have hbandsne : partitionIntoBands candidates cfg ≠ [] := by
      intro h
      rw [h] at hflat
      simp only [List.map_nil, List.flatten_nil] at hflat
      exact hc (by rw [hflat.symm.eq_nil]; rfl)
    have hSsum : ((partitionIntoBands candidates cfg).map fun b => b.2.length).sum
        = candidates.length := by
      have h1 := hflat.length_eq
      rw [List.length_flatten, List.map_map] at h1
      exact h1
    have hsum := calculateBandQuotas_sum (partitionIntoBands candidates cfg) cfg
      hbne hknd hbandsne
    have hbounds := calculateBandQuotas_bounds (partitionIntoBands candidates cfg)
      cfg hbne hknd
    have hsel := selectFromBands_length (partitionIntoBands candidates cfg)
      (calculateBandQuotas (partitionIntoBands candidates cfg) cfg) draws
      (fun kq hkq => (hbounds kq hkq).2)
    have hord := (orderProblems_perm (selectFromBands
      (partitionIntoBands candidates cfg)
      (calculateBandQuotas (partitionIntoBands candidates cfg) cfg) draws)
      shuf hshuf).length_eq
    rw [List.length_take, hord, hsel, hsum]
    have hnS : (partitionIntoBands candidates cfg).length
        ≤ ((partitionIntoBands candidates cfg).map fun b => b.2.length).sum := by
      have hl : (((partitionIntoBands candidates cfg).map fun b => b.2.length)).length
          = (partitionIntoBands candidates cfg).length := List.length_map ..
      rw [← hl]
      apply length_le_sum_of_one_le
      intro x hx
      obtain ⟨b, hb, rfl⟩ := List.mem_map.mp hx
      exact List.length_pos.mpr (hbne b hb)
    rw [hSsum] at hnS ⊢
    omega

/-- Witness for `generatePath_length` on a one-candidate snapshot with the
identity shuffle and a constant draw stream. -/
theorem generatePath_length_witness :
    (∀ p ∈ [exProblem 1 850], (p.rating).isSome) ∧
      (∀ (i : ℕ) (g : List Problem), ((fun (_ : ℕ) (l : List Problem) => l) i g).Perm g) ∧
      (generatePath uniformTinyConfig [exProblem 1 850]
          (fun _ _ => (0 : ℝ)) (fun _ l => l)).length
        = min uniformTinyConfig.problemCount ([exProblem 1 850] : List Problem).length :=
  ⟨by decide, fun i g => List.Perm.refl g,
    generatePath_length uniformTinyConfig [exProblem 1 850]
      (fun _ _ => (0 : ℝ)) (fun _ l => l) (by decide) (fun i g => List.Perm.refl g)⟩

/-! ## C2: no duplicates, exclusions honoured -/

/-- C2: for every config, every candidate snapshot (distinct ids and no
excluded ids, as the `DISTINCT` / `NOT IN` clauses of `_fetch_candidates`
guarantee) and every sequence of random draws and shuffles, the generated
path has no duplicate problem ids and contains no excluded id: bands
partition the candidates, sampling is without replacement inside a band,
and ordering only permutes. -/
theorem generatePath_nodup_and_excluded (cfg : PathConfig)
    (candidates : List Problem) (draws : ℤ → ℕ → ℝ)
    (shuf : ℕ → List Problem → List Problem)
    (hnd : (candidates.map (·.id)).Nodup)
    (hex : ∀ p ∈ candidates, p.id ∉ cfg.excludeProblemIds)
    (hshuf : ∀ i g, (shuf i g).Perm g) :
    ((generatePath cfg candidates draws shuf).map (·.id)).Nodup ∧
      ∀ p ∈ generatePath cfg candidates draws shuf,
        p.id ∉ cfg.excludeProblemIds := by
  by_cases hc : candidates.isEmpty
  · have h0 : candidates = [] := List.isEmpty_iff.mp hc
    subst h0
    simp [generatePath]
  · simp only [generatePath]
    rw [if_neg hc]
    have hband := partition_band_mem candidates cfg
    have hbandnd : ∀ b ∈ partitionIntoBands candidates cfg,
        (b.2.map (·.id)).Nodup := by
      intro b hb
      have hperm := (hband b hb).2.1
      have hfnd : (((candidates.filter fun p =>
          ratingKey cfg.ratingStep p = some b.1).map (·.id))).Nodup :=
        List.Nodup.sublist ((List.filter_sublist _).map _) hnd
      exact ((hperm.map _).nodup_iff).mpr hfnd
    have hbandmem : ∀ b ∈ partitionIntoBands candidates cfg, ∀ p ∈ b.2,
        p ∈ candidates ∧ ratingKey cfg.ratingStep p = some b.1 :=
      fun b hb => (hband b hb).2.2
    have hqkeys : ((calculateBandQuotas (partitionIntoBands candidates cfg)
        cfg).map (·.1)).Nodup := by
      rw [calculateBandQuotas_keys]
      exact partition_keys_nodup candidates cfg
    obtain ⟨hselnd, hselsub⟩ := selectFromBands_nodup_subset
      (partitionIntoBands candidates cfg)
      (calculateBandQuotas (partitionIntoBands candidates cfg) cfg) draws
      candidates cfg.ratingStep hnd hbandnd hbandmem hqkeys
    have hordperm := orderProblems_perm (selectFromBands
      (partitionIntoBands candidates cfg)
      (calculateBandQuotas (partitionIntoBands candidates cfg) cfg) draws)
      shuf hshuf
    constructor
    · have hordnd : ((orderProblems (selectFromBands
          (partitionIntoBands candidates cfg)
          (calculateBandQuotas (partitionIntoBands candidates cfg) cfg) draws)
          shuf).map (·.id)).Nodup := ((hordperm.map _).nodup_iff).mpr hselnd
      exact List.Nodup.sublist ((List.take_sublist _ _).map _) hordnd
    · intro p hp
      have hp1 := List.take_subset _ _ hp
      have hp2 := hordperm.subset hp1
      exact hex p (hselsub p hp2)

/-- Witness for `generatePath_nodup_and_excluded` on a one-candidate
snapshot with the identity shuffle. -/
theorem generatePath_nodup_and_excluded_witness :
    (([exProblem 1 850].map (·.id)).Nodup) ∧
      (∀ p ∈ [exProblem 1 850], p.id ∉ uniformTinyConfig.excludeProblemIds) ∧
      (∀ (i : ℕ) (g : List Problem), ((fun (_ : ℕ) (l : List Problem) => l) i g).Perm g) ∧
      (((generatePath uniformTinyConfig [exProblem 1 850]
            (fun _ _ => (0 : ℝ)) (fun _ l => l)).map (·.id)).Nodup ∧
        ∀ p ∈ generatePath uniformTinyConfig [exProblem 1 850]
            (fun _ _ => (0 : ℝ)) (fun _ l => l),
          p.id ∉ uniformTinyConfig.excludeProblemIds) :=
  ⟨by decide, by decide, fun i g => List.Perm.refl g,
    generatePath_nodup_and_excluded uniformTinyConfig [exProblem 1 850]
      (fun _ _ => (0 : ℝ)) (fun _ l => l) (by decide) (by decide)
      (fun i g => List.Perm.refl g)⟩
